import Mathlib

/-!
# primitiv: the pooled allocator (`primitiv/memory_pool.cc`)

A shallow embedding of `primitiv::MemoryPool` and proofs about it.

* Addresses (`void *`) are natural numbers.
* `reserved_` (a `std::vector<std::vector<void *>>` built with 64 entries) is a list
  of lists; the back of a `std::vector` is the last element of the list.
* `supplied_` (a `std::unordered_map<void *, std::uint64_t>`) is an association
  list; `begin()` is its head.  The iteration order of an unordered map is not
  specified, so results that depend on it are stated up to permutation.
* The two injected callbacks act on an abstract environment `σ`; an allocator
  that throws is an allocator that returns `none`.  Every callback invocation
  is appended to a log, so that "the callback is (not) invoked" is a statement
  about the log.
* A C++ exception is an `Except.error` result together with the state that the
  object is left in.
* The release action of a handle and the registry of pools, whose headers are
  not among the sources, follow the specification.
* The work-group size helpers of the OpenCL device (`devices/opencl/internal.h`)
  work on `std::uint32_t`: natural numbers with every shift and product reduced
  modulo `2 ^ 32`; a loop is given a bound on the number of tests of its
  condition and yields `none` when it does not exit within the bound.
-/

namespace primitiv

/-- A raw block address (`void *`). -/
abbrev Addr := Nat

/-- The three failure conditions of the pool.  `InvalidSize` is the
`THROW_ERROR("Invalid memory size: ...")` of `allocate`, `UnknownHandle` is the
`THROW_ERROR("Detected to dispose unknown handle: ...")` of `free`, and
`OutOfMemory` is whatever the allocation callback threw on its last attempt. -/
inductive PoolError where
  | InvalidSize
  | OutOfMemory
  | UnknownHandle
  deriving DecidableEq, Repr

/-- One invocation of an injected callback. -/
inductive Event where
  | alloc (capacity : Nat) (result : Option Addr)
  | release (ptr : Addr)
  deriving DecidableEq, Repr

/-- The callbacks given to the constructor: `allocator_` may fail (`none`) and
both may change the environment. -/
structure Callbacks (σ : Type) where
  allocator_ : Nat → σ → Option Addr × σ
  deleter_ : Addr → σ → σ

/-- The environment of the pool together with the chronological log of callback
invocations (oldest first). -/
structure World (σ : Type) where
  env : σ
  log : List Event
  deriving DecidableEq, Repr

/-- The state of a `MemoryPool` object: its identifier (from the `Identifiable`
mixin), the free lists and the outstanding map. -/
structure MemoryPool where
  id_ : Nat
  reserved_ : List (List Addr)
  supplied_ : List (Addr × Nat)
  deriving DecidableEq, Repr

/-- The value returned by `allocate`: `std::shared_ptr<void>(ptr, Deleter(id()))`. -/
structure Handle where
  ptr : Addr
  pool_id : Nat
  deriving DecidableEq, Repr

/-- Result of a member function: the returned value or the thrown error, and
the state the pool and its environment are left in. -/
structure Outcome (α σ : Type) where
  result : Except PoolError α
  pool : MemoryPool
  world : World σ

/-- The call `allocator_(capacity)`, logged. -/
def callAllocator {σ : Type} (cb : Callbacks σ) (capacity : Nat) (w : World σ) :
    Option Addr × World σ :=
  ((cb.allocator_ capacity w.env).1,
    ⟨(cb.allocator_ capacity w.env).2, w.log ++ [Event.alloc capacity (cb.allocator_ capacity w.env).1]⟩)

/-- The call `deleter_(ptr)`, logged. -/
def callDeleter {σ : Type} (cb : Callbacks σ) (ptr : Addr) (w : World σ) : World σ :=
  ⟨cb.deleter_ ptr w.env, w.log ++ [Event.release ptr]⟩

/-! ## The outstanding map -/

/-- The lookup `supplied_.find(ptr)`: the recorded shift, or `none` for `end()`. -/
def find (m : List (Addr × Nat)) (ptr : Addr) : Option Nat :=
  match m with
  | [] => none
  | e :: rest => if e.1 = ptr then some e.2 else find rest ptr

/-- The removal `supplied_.erase(it)` of the entry whose key is `ptr`. -/
def erase : List (Addr × Nat) → Addr → List (Addr × Nat)
  | [], _ => []
  | e :: rest, ptr => if e.1 = ptr then erase rest ptr else e :: erase rest ptr

/-- The insertion `supplied_.emplace(ptr, shift)`: nothing is inserted when the
key is already present. -/
def emplace (m : List (Addr × Nat)) (ptr : Addr) (shift : Nat) : List (Addr × Nat) :=
  match find m ptr with
  | some _ => m
  | none => (ptr, shift) :: m

/-- The keys of the outstanding map. -/
def keys (m : List (Addr × Nat)) : List Addr := m.map Prod.fst

/-! ## The size class -/

/-- Linear search for the least `k` in `[k, k + fuel)` with `x ≤ 2 ^ k`; the
result is `k + fuel` when there is none. -/
def shiftSearch : Nat → Nat → Nat → Nat
  | 0, k, _ => k
  | fuel + 1, k, x => if x ≤ 2 ^ k then k else shiftSearch fuel (k + 1) x

/-- Modelled from the spec: `numeric_utils::calculate_shifts`, declared in
`primitiv/numeric_utils.h`, which is not among the sources.  Section 4.1:
"returns smallest k with 2^k ≥ size, for size > 0", and section 8:
"`class_of(0)` fails with `InvalidSize`".  For a 64-bit argument above `2 ^ 63` the
smallest such `k` is 64, which `allocate` rejects itself. -/
def calculate_shifts (x : Nat) : Except PoolError Nat :=
  if x = 0 then Except.error PoolError.InvalidSize else Except.ok (shiftSearch 64 0 x)

/-- The constant `MAX_SHIFTS` of `allocate`. -/
def MAX_SHIFTS : Nat := 63

/-- The expression `1ull << shift` in 64-bit unsigned arithmetic. -/
def shl1 (shift : Nat) : Nat := (2 ^ shift) % 2 ^ 64

/-! ## The member functions -/

/-- The constructor: 64 empty free lists and an empty outstanding map. -/
def MemoryPool.new (id : Nat) : MemoryPool :=
  ⟨id, List.replicate 64 [], []⟩

/-- The free list `reserved_[k]`. -/
def MemoryPool.bucket (p : MemoryPool) (k : Nat) : List Addr :=
  p.reserved_.getD k []

/-- The inner loop of `release_reserved_blocks`:
`while (!ptrs.empty()) { deleter_(ptrs.back()); ptrs.pop_back(); }`. -/
def drainBlocks {σ : Type} (cb : Callbacks σ) : Nat → List Addr → World σ → List Addr × World σ
  | 0, ptrs, w => (ptrs, w)
  | fuel + 1, ptrs, w =>
    match ptrs.getLast? with
    | none => (ptrs, w)
    | some a => drainBlocks cb fuel ptrs.dropLast (callDeleter cb a w)

/-- The outer loop of `release_reserved_blocks`: `for (auto &ptrs : reserved_)`. -/
def releaseLists {σ : Type} (cb : Callbacks σ) : List (List Addr) → World σ → List (List Addr) × World σ
  | [], w => ([], w)
  | ptrs :: rest, w =>
    ((drainBlocks cb ptrs.length ptrs w).1 ::
        (releaseLists cb rest (drainBlocks cb ptrs.length ptrs w).2).1,
      (releaseLists cb rest (drainBlocks cb ptrs.length ptrs w).2).2)

/-- The member `MemoryPool::release_reserved_blocks`. -/
def release_reserved_blocks {σ : Type} (cb : Callbacks σ) (p : MemoryPool) (w : World σ) :
    MemoryPool × World σ :=
  (⟨p.id_, (releaseLists cb p.reserved_ w).1, p.supplied_⟩, (releaseLists cb p.reserved_ w).2)

/-- The member `MemoryPool::allocate`. -/
def allocate {σ : Type} (cb : Callbacks σ) (p : MemoryPool) (w : World σ) (size : Nat) :
    Outcome Handle σ :=
  match calculate_shifts size with
  | Except.error e => ⟨Except.error e, p, w⟩
  | Except.ok shift =>
    if shift > MAX_SHIFTS then ⟨Except.error PoolError.InvalidSize, p, w⟩
    else
      match (p.bucket shift).getLast? with
      | none =>
        -- the free list is empty: allocates a new block
        match callAllocator cb (shl1 shift) w with
        | (some ptr, w1) =>
          ⟨Except.ok ⟨ptr, p.id_⟩, ⟨p.id_, p.reserved_, emplace p.supplied_ ptr shift⟩, w1⟩
        | (none, w1) =>
          match callAllocator cb (shl1 shift) (release_reserved_blocks cb p w1).2 with
          | (some ptr, w3) =>
            ⟨Except.ok ⟨ptr, p.id_⟩,
              ⟨p.id_, (release_reserved_blocks cb p w1).1.reserved_,
                emplace (release_reserved_blocks cb p w1).1.supplied_ ptr shift⟩, w3⟩
          | (none, w3) =>
            ⟨Except.error PoolError.OutOfMemory, (release_reserved_blocks cb p w1).1, w3⟩
      | some ptr =>
        -- returns an existing block: the back of the free list
        ⟨Except.ok ⟨ptr, p.id_⟩,
          ⟨p.id_, p.reserved_.set shift (p.bucket shift).dropLast, emplace p.supplied_ ptr shift⟩, w⟩

/-- The member `MemoryPool::free`. -/
def free {σ : Type} (p : MemoryPool) (w : World σ) (ptr : Addr) : Outcome Unit σ :=
  match find p.supplied_ ptr with
  | none => ⟨Except.error PoolError.UnknownHandle, p, w⟩
  | some k =>
    ⟨Except.ok (), ⟨p.id_, p.reserved_.set k (p.bucket k ++ [ptr]), erase p.supplied_ ptr⟩, w⟩

/-- The loop of the destructor: `while (!supplied_.empty()) free(supplied_.begin()->first);`. -/
def flushSupplied {σ : Type} : Nat → MemoryPool → World σ → Outcome Unit σ
  | 0, p, w => ⟨Except.ok (), p, w⟩
  | fuel + 1, p, w =>
    match p.supplied_ with
    | [] => ⟨Except.ok (), p, w⟩
    | e :: _ =>
      match (free p w e.1).result with
      | Except.ok _ => flushSupplied fuel (free p w e.1).pool (free p w e.1).world
      | Except.error err => ⟨Except.error err, (free p w e.1).pool, (free p w e.1).world⟩

/-- The destructor `MemoryPool::~MemoryPool`. -/
def destroy {σ : Type} (cb : Callbacks σ) (p : MemoryPool) (w : World σ) : Outcome Unit σ :=
  match (flushSupplied p.supplied_.length p w).result with
  | Except.ok _ =>
    ⟨Except.ok (),
      (release_reserved_blocks cb (flushSupplied p.supplied_.length p w).pool
        (flushSupplied p.supplied_.length p w).world).1,
      (release_reserved_blocks cb (flushSupplied p.supplied_.length p w).pool
        (flushSupplied p.supplied_.length p w).world).2⟩
  | Except.error err =>
    ⟨Except.error err, (flushSupplied p.supplied_.length p w).pool,
      (flushSupplied p.supplied_.length p w).world⟩

/-! ## A scripted allocator for concrete runs -/

/-- Callbacks driven by a script: each allocation request consumes the next
scripted answer (failing once the script is exhausted); the release callback
leaves the script alone. -/
def scripted : Callbacks (List (Option Addr)) where
  allocator_ := fun _ e => (e.head?.join, e.tail)
  deleter_ := fun _ e => e

/-- Callbacks with a recording release stub: the allocation callback answers
from a script as `scripted` does, and the release callback appends the address
it is given to the record kept in the environment. -/
def recording : Callbacks (List (Option Addr) × List Addr) where
  allocator_ := fun _ e => (e.1.head?.join, (e.1.tail, e.2))
  deleter_ := fun ptr e => (e.1, e.2 ++ [ptr])

/-! ## Pool invariants and operation sequences -/

/-- Every address the pool holds: the free lists in class order, then the keys
of the outstanding map. -/
def held (p : MemoryPool) : List Addr :=
  p.reserved_.flatten ++ keys p.supplied_

/-- Shape of a pool state: there are 64 free lists and every recorded shift
indexes one of them. -/
def WF (p : MemoryPool) : Prop :=
  p.reserved_.length = 64 ∧ ∀ e ∈ p.supplied_, e.2 < 64

/-- The pool invariant: the shape is right and no address is held twice
(neither twice in the free lists, nor twice in the outstanding map, nor once in
each). -/
def Inv (p : MemoryPool) : Prop :=
  WF p ∧ (held p).Nodup

instance (p : MemoryPool) : Decidable (WF p) := by
  unfold WF; infer_instance

instance (p : MemoryPool) : Decidable (Inv p) := by
  unfold Inv; infer_instance

/-- The deleter applied to a sequence of addresses, first to last. -/
def releaseAll {σ : Type} (cb : Callbacks σ) (ptrs : List Addr) (w : World σ) : World σ :=
  ptrs.foldl (fun acc a => callDeleter cb a acc) w

/-- The order in which `release_reserved_blocks` visits the blocks of the free
lists: class by class, each class from its back to its front. -/
def drainOrder (reserved : List (List Addr)) : List Addr :=
  (reserved.map List.reverse).flatten

/-- The addresses passed to the release callback, in order of invocation. -/
def releasedAddrs : List Event → List Addr
  | [] => []
  | Event.release a :: rest => a :: releasedAddrs rest
  | Event.alloc _ _ :: rest => releasedAddrs rest

/-- The addresses returned by successful calls of the allocation callback, in
order of invocation. -/
def allocatedAddrs : List Event → List Addr
  | [] => []
  | Event.alloc _ (some a) :: rest => a :: allocatedAddrs rest
  | Event.alloc _ none :: rest => allocatedAddrs rest
  | Event.release _ :: rest => allocatedAddrs rest

/-- The requests made to the allocation callback (capacity and answer), in
order of invocation. -/
def allocCalls : List Event → List (Nat × Option Addr)
  | [] => []
  | Event.alloc c r :: rest => (c, r) :: allocCalls rest
  | Event.release _ :: rest => allocCalls rest

/-- An operation of a client on the pool. -/
inductive Op where
  | allocate (size : Nat)
  | free (ptr : Addr)
  deriving DecidableEq, Repr

/-- The effect of one operation on the pool and its environment (a thrown
error is caught by the client, the state is kept). -/
def step {σ : Type} (cb : Callbacks σ) (s : MemoryPool × World σ) (op : Op) :
    MemoryPool × World σ :=
  match op with
  | Op.allocate size => ((allocate cb s.1 s.2 size).pool, (allocate cb s.1 s.2 size).world)
  | Op.free ptr => ((free s.1 s.2 ptr).pool, (free s.1 s.2 ptr).world)

/-- A sequence of operations, first to last. -/
def run {σ : Type} (cb : Callbacks σ) (s : MemoryPool × World σ) (ops : List Op) :
    MemoryPool × World σ :=
  ops.foldl (step cb) s

/-- During the call `allocate(size)` from the given state, whether each address
returned by the allocation callback is one the pool does not hold at the
moment it is returned. -/
def freshCall {σ : Type} (cb : Callbacks σ) (p : MemoryPool) (w : World σ) (size : Nat) : Bool :=
  match calculate_shifts size with
  | Except.error _ => true
  | Except.ok shift =>
    if shift > MAX_SHIFTS then true
    else
      match (p.bucket shift).getLast? with
      | some _ => true
      | none =>
        match callAllocator cb (shl1 shift) w with
        | (some ptr, _) => decide (ptr ∉ held p)
        | (none, w1) =>
          match callAllocator cb (shl1 shift) (release_reserved_blocks cb p w1).2 with
          | (some ptr, _) => decide (ptr ∉ held (release_reserved_blocks cb p w1).1)
          | (none, _) => true

/-- Along a sequence of operations, whether the allocation callback never
returns an address that the pool holds at that moment. -/
def freshRun {σ : Type} (cb : Callbacks σ) : MemoryPool × World σ → List Op → Bool
  | _, [] => true
  | s, Op.allocate size :: ops =>
    freshCall cb s.1 s.2 size && freshRun cb (step cb s (Op.allocate size)) ops
  | s, Op.free ptr :: ops => freshRun cb (step cb s (Op.free ptr)) ops

/-! ## The work-group size helpers of the OpenCL device (`devices/opencl/internal.h`) -/

/-- The shift `v << 1` (and the assignment `v <<= 1`) on a `std::uint32_t`. -/
def shl32 (v : Nat) : Nat := (v * 2) % 2 ^ 32

/-- The product `x * y` of two `std::uint32_t`. -/
def mul32 (x y : Nat) : Nat := (x * y) % 2 ^ 32

/-- The loop `while (ret << 1 <= size) ret <<= 1;` of `calc_dim1_size`, allowed at
most `fuel` evaluations of its condition: `some ret` when the loop exits within
them, `none` when it does not. -/
def calc_dim1_loop : Nat → Nat → Nat → Option Nat
  | 0, _, _ => none
  | fuel + 1, size, ret =>
    if shl32 ret ≤ size then calc_dim1_loop fuel size (shl32 ret) else some ret

/-- The helper `OpenCLInternalState::calc_dim1_size`: `ret = 1`, the loop,
`return ret`. -/
def calc_dim1_size (fuel size : Nat) : Option Nat :=
  calc_dim1_loop fuel size 1

/-- The loop `while ((x * y) << 1 <= size) { (p ? x : y) <<= 1; p = !p; }` of
`calc_dim2_sizes`, allowed at most `fuel` evaluations of its condition. -/
def calc_dim2_loop : Nat → Nat → Nat → Nat → Bool → Option (Nat × Nat)
  | 0, _, _, _, _ => none
  | fuel + 1, size, x, y, p =>
    if shl32 (mul32 x y) ≤ size then
      (if p then calc_dim2_loop fuel size (shl32 x) y (!p)
        else calc_dim2_loop fuel size x (shl32 y) (!p))
    else some (x, y)

/-- The helper `OpenCLInternalState::calc_dim2_sizes`: `x = y = 1`, `p = true`,
the loop; the result is the pair left in the references `x` and `y`. -/
def calc_dim2_sizes (fuel size : Nat) : Option (Nat × Nat) :=
  calc_dim2_loop fuel size 1 1 true

/-! ## The handle's release action and the registry of pools

`allocate` returns `std::shared_ptr<void>(ptr, Deleter(id()))`.  The class
`Deleter` and the mixin `mixins::Identifiable<MemoryPool>` are declared in
headers; `memory_pool.cc` only defines the statics `next_id_` (initially 0) and
`objects_` of the mixin. -/

/-- Modelled from the spec: the Identity Registry, that is the static state of
`mixins::Identifiable<MemoryPool>` (its header is not among the sources).
Section 3: a "mapping from pool id → weak reference to MemoryPool"; a pool is
"identified by a process-unique integer id (assigned at construction, registered
in the Identity Registry, unregistered at destruction)".  The pools registered
in `objects_` are kept with their state; all pools act on one environment. -/
structure Registry (σ : Type) where
  next_id_ : Nat
  objects_ : List MemoryPool
  world : World σ

/-- Modelled from the spec: the lookup of a pool by its id in the Identity
Registry (`get_object` of the mixin, not among the sources).  Section 3:
"Lookups after removal return 'not found.'" -/
def get_object (objs : List MemoryPool) (id : Nat) : Option MemoryPool :=
  objs.find? (fun q => decide (q.id_ = id))

/-- The ids registered in `objects_`. -/
def ids (objs : List MemoryPool) : List Nat := objs.map MemoryPool.id_

/-- Writes the new state of a registered pool back under its id. -/
def putPool (objs : List MemoryPool) (p : MemoryPool) : List MemoryPool :=
  objs.map (fun q => if q.id_ = p.id_ then p else q)

/-- Modelled from the spec: construction of a pool (constructor of the mixin, not
among the sources): the pool gets the next id and is added to the registry
(section 3: "Entries are added when a MemoryPool is constructed"). -/
def Registry.construct {σ : Type} (r : Registry σ) : Registry σ :=
  ⟨r.next_id_ + 1, MemoryPool.new r.next_id_ :: r.objects_, r.world⟩

/-- Modelled from the spec: destruction of the pool registered under `id` (the
destructor of the mixin is not among the sources).  Section 6: "pool destruction
performs `drain()` then registry removal"; the drain is `MemoryPool::~MemoryPool`
with the callbacks of that pool. -/
def Registry.destruct {σ : Type} (cbs : Nat → Callbacks σ) (r : Registry σ) (id : Nat) :
    Registry σ :=
  match get_object r.objects_ id with
  | none => r
  | some p =>
    ⟨r.next_id_, r.objects_.filter (fun q => decide (q.id_ ≠ id)), (destroy (cbs id) p r.world).world⟩

/-- The call of `allocate` on the pool registered under `id`. -/
def Registry.allocate {σ : Type} (cbs : Nat → Callbacks σ) (r : Registry σ) (id size : Nat) :
    Option Handle × Registry σ :=
  match get_object r.objects_ id with
  | none => (none, r)
  | some p =>
    ((primitiv.allocate (cbs id) p r.world size).result.toOption,
      ⟨r.next_id_, putPool r.objects_ (primitiv.allocate (cbs id) p r.world size).pool,
        (primitiv.allocate (cbs id) p r.world size).world⟩)

/-- Modelled from the spec: the release action `Deleter(pool_id)(ptr)` of a handle
(class `Deleter`, declared in `primitiv/memory_pool.h`, not among the sources).
Section 4.3: "look up owning pool id in the Identity Registry. If found (pool
still alive) → call `release_block(addr)` on it (4.2). If not found (pool already
torn down) → no-op". -/
def Deleter {σ : Type} (pool_id : Nat) (ptr : Addr) (r : Registry σ) : Registry σ :=
  match get_object r.objects_ pool_id with
  | none => r
  | some p => ⟨r.next_id_, putPool r.objects_ (free p r.world ptr).pool, (free p r.world ptr).world⟩

/-- An event in the life of the process: a pool is constructed, a pool is asked
for memory, the last reference to a handle disappears, a pool is destroyed. -/
inductive SysOp where
  | construct
  | allocate (id size : Nat)
  | release (h : Handle)
  | destruct (id : Nat)
  deriving DecidableEq, Repr

/-- The effect of one event on the registry, the pools and the environment. -/
def sysStep {σ : Type} (cbs : Nat → Callbacks σ) (r : Registry σ) (op : SysOp) : Registry σ :=
  match op with
  | SysOp.construct => r.construct
  | SysOp.allocate id size => (r.allocate cbs id size).2
  | SysOp.release h => Deleter h.pool_id h.ptr r
  | SysOp.destruct id => r.destruct cbs id

/-- A sequence of events, first to last. -/
def sysRun {σ : Type} (cbs : Nat → Callbacks σ) (r : Registry σ) (ops : List SysOp) : Registry σ :=
  ops.foldl (sysStep cbs) r

/-! ## The release callback of the OpenCL device (`devices/opencl/device.cc`) -/

/-- What the OpenCL device does to its command queue and its buffers. -/
inductive ClEvent where
  | newBuffer (ptr : Addr) (size : Nat)
  | finish
  | deleteBuffer (ptr : Addr) (inFlight : Nat)
  deriving DecidableEq, Repr

/-- The state of an `OpenCLInternalState` as far as its pool callbacks go: the
commands enqueued on `queue` that have not completed, the live `cl::Buffer`
objects, the answers of `new cl::Buffer` still to come (`none` for a failure),
and the trace of what was done.  A `deleteBuffer` entry records how many
commands were in flight when the buffer was deleted. -/
structure ClState where
  inFlight : List Nat
  buffers : List Addr
  answers : List (Option Addr)
  trace : List ClEvent
  deriving DecidableEq, Repr

/-- The call `queue.finish()`: it returns once every command enqueued so far has
completed (OpenCL `clFinish`). -/
def queue_finish (st : ClState) : ClState :=
  ⟨[], st.buffers, st.answers, st.trace ++ [ClEvent.finish]⟩

/-- The statement `delete static_cast<cl::Buffer *>(ptr)`. -/
def delete_buffer (ptr : Addr) (st : ClState) : ClState :=
  ⟨st.inFlight, st.buffers.filter (fun b => decide (b ≠ ptr)), st.answers,
    st.trace ++ [ClEvent.deleteBuffer ptr st.inFlight.length]⟩

/-- The deleter lambda given to `pool` by `OpenCLInternalState`:
`queue.finish(); delete static_cast<cl::Buffer *>(ptr);`. -/
def opencl_deleter (ptr : Addr) (st : ClState) : ClState :=
  delete_buffer ptr (queue_finish st)

/-- The allocator lambda given to `pool` by `OpenCLInternalState`:
`new cl::Buffer(context, CL_MEM_READ_WRITE | CL_MEM_ALLOC_HOST_PTR, size, nullptr)`. -/
def opencl_allocator (size : Nat) (st : ClState) : Option Addr × ClState :=
  match st.answers with
  | some ptr :: rest =>
    (some ptr, ⟨st.inFlight, ptr :: st.buffers, rest, st.trace ++ [ClEvent.newBuffer ptr size]⟩)
  | none :: rest => (none, ⟨st.inFlight, st.buffers, rest, st.trace⟩)
  | [] => (none, st)

/-- The callbacks of the pool of an `OpenCLInternalState`. -/
def opencl : Callbacks ClState :=
  ⟨opencl_allocator, opencl_deleter⟩

/-- The kernel launch `queue.enqueueNDRangeKernel(...)` of an operator: one more
command in flight. -/
def enqueue_kernel (k : Nat) (st : ClState) : ClState :=
  ⟨st.inFlight ++ [k], st.buffers, st.answers, st.trace⟩

/-! ## The capacity of a block -/

/-- The capacity with which the address `a` was last obtained from the allocation
callback, as far as the callback log tells; `none` when it was never obtained or
has been passed to the release callback since. -/
def liveCap (log : List Event) (a : Addr) : Option Nat :=
  log.foldl (fun acc e =>
    match e with
    | Event.alloc c (some b) => if b = a then some c else acc
    | Event.alloc _ none => acc
    | Event.release b => if b = a then none else acc) none

/-- The size-class consistency of a pool state with a callback log: every block
in the free list of class `k`, and every outstanding block recorded with class
`k`, was last obtained from the allocation callback with capacity `2 ^ k` and has
not been passed to the release callback since. -/
def CapInv {σ : Type} (p : MemoryPool) (w : World σ) : Prop :=
  (∀ k a, a ∈ p.bucket k → liveCap w.log a = some (2 ^ k))
  ∧ ∀ e ∈ p.supplied_, liveCap w.log e.1 = some (2 ^ e.2)

/-! ## Lemmas on the outstanding map -/

theorem find_eq_none_iff (m : List (Addr × Nat)) (a : Addr) :
    find m a = none ↔ a ∉ keys m := by
  induction m with
  | nil => simp [find, keys]
  | cons e rest ih =>
    unfold find
    by_cases h : e.1 = a
    · simp [h, keys]
    · simp only [h, if_false, ih, keys, List.map_cons, List.mem_cons, not_or]
      constructor
      · intro h2; exact ⟨fun h3 => h h3.symm, h2⟩
      · intro h2; exact h2.2

theorem find_some_mem (m : List (Addr × Nat)) (a : Addr) (k : Nat) (h : find m a = some k) :
    (a, k) ∈ m := by
  induction m with
  | nil => simp [find] at h
  | cons e rest ih =>
    unfold find at h
    by_cases h1 : e.1 = a
    · simp only [h1, if_true, Option.some.injEq] at h
      have : e = (a, k) := Prod.ext h1 h
      simp [this]
    · simp only [h1, if_false] at h
      exact List.mem_cons_of_mem _ (ih h)

theorem mem_erase_iff (m : List (Addr × Nat)) (a : Addr) (e : Addr × Nat) :
    e ∈ erase m a ↔ e ∈ m ∧ e.1 ≠ a := by
  induction m with
  | nil => simp [erase]
  | cons d rest ih =>
    unfold erase
    by_cases h : d.1 = a
    · simp only [h, if_true, ih, List.mem_cons]
      constructor
      · intro h2; exact ⟨Or.inr h2.1, h2.2⟩
      · rintro ⟨h2 | h2, h3⟩
        · exact absurd (h2 ▸ h) h3
        · exact ⟨h2, h3⟩
    · simp only [h, if_false, List.mem_cons, ih]
      constructor
      · rintro (h2 | h2)
        · exact ⟨Or.inl h2, h2 ▸ h⟩
        · exact ⟨Or.inr h2.1, h2.2⟩
      · rintro ⟨h2 | h2, h3⟩
        · exact Or.inl h2
        · exact Or.inr ⟨h2, h3⟩

theorem mem_keys_erase_iff (m : List (Addr × Nat)) (a b : Addr) :
    b ∈ keys (erase m a) ↔ b ∈ keys m ∧ b ≠ a := by
  simp only [keys, List.mem_map, mem_erase_iff]
  constructor
  · rintro ⟨e, ⟨h1, h2⟩, h3⟩
    exact ⟨⟨e, h1, h3⟩, h3 ▸ h2⟩
  · rintro ⟨⟨e, h1, h3⟩, h2⟩
    exact ⟨e, ⟨h1, h3 ▸ h2⟩, h3⟩

theorem find_erase_self (m : List (Addr × Nat)) (a : Addr) : find (erase m a) a = none := by
  rw [find_eq_none_iff, mem_keys_erase_iff]
  exact fun h => h.2 rfl

theorem find_cons (e : Addr × Nat) (rest : List (Addr × Nat)) (b : Addr) :
    find (e :: rest) b = if e.1 = b then some e.2 else find rest b := rfl

theorem find_erase_ne (m : List (Addr × Nat)) (a b : Addr) (h : b ≠ a) :
    find (erase m a) b = find m b := by
  induction m with
  | nil => rfl
  | cons e rest ih =>
    unfold erase
    by_cases h1 : e.1 = a
    · have h2 : ¬ e.1 = b := fun h3 => h (h3.symm.trans h1)
      rw [if_pos h1, ih, find_cons, if_neg h2]
    · rw [if_neg h1, find_cons, find_cons, ih]

theorem erase_length_le (m : List (Addr × Nat)) (a : Addr) :
    (erase m a).length ≤ m.length := by
  induction m with
  | nil => simp [erase]
  | cons e rest ih =>
    unfold erase
    by_cases h : e.1 = a
    · simp only [h, if_true, List.length_cons]; omega
    · simp only [h, if_false, List.length_cons]; omega

theorem keys_perm_erase (m : List (Addr × Nat)) (a : Addr) (h : (keys m).Nodup)
    (hm : a ∈ keys m) : List.Perm (keys m) (a :: keys (erase m a)) := by
  induction m with
  | nil => simp [keys] at hm
  | cons e rest ih =>
    have hk : keys (e :: rest) = e.1 :: keys rest := rfl
    rw [hk, List.nodup_cons] at h
    unfold erase
    by_cases hb : e.1 = a
    · have hnot : a ∉ keys rest := hb ▸ h.1
      have her : erase rest a = rest := by
        clear ih h hm hk
        induction rest with
        | nil => rfl
        | cons d r ih2 =>
          have hd : ¬ d.1 = a := fun hda =>
            hnot (by rw [← hda]; exact List.mem_map_of_mem Prod.fst (List.mem_cons_self d r))
          have hr : a ∉ keys r := fun hr => hnot (List.mem_cons_of_mem _ hr)
          unfold erase
          simp only [hd, if_false, ih2 hr]
      simp only [hb, if_true, her, hk]
      exact List.Perm.refl _
    · have hm2 : a ∈ keys rest := by
        rw [hk] at hm
        rcases List.mem_cons.1 hm with h1 | h1
        · exact absurd h1.symm hb
        · exact h1
      simp only [hb, if_false, hk]
      have hk2 : keys (e :: erase rest a) = e.1 :: keys (erase rest a) := rfl
      rw [hk2]
      exact (List.Perm.cons e.1 (ih h.2 hm2)).trans (List.Perm.swap a e.1 _)

theorem find_emplace_self (m : List (Addr × Nat)) (a : Addr) (k : Nat) (h : find m a = none) :
    find (emplace m a k) a = some k := by
  simp [emplace, h, find]

theorem find_emplace_ne (m : List (Addr × Nat)) (a b : Addr) (k : Nat) (h : b ≠ a) :
    find (emplace m a k) b = find m b := by
  unfold emplace
  cases find m a with
  | some _ => rfl
  | none => simp [find, Ne.symm h]

theorem emplace_of_not_mem (m : List (Addr × Nat)) (a : Addr) (k : Nat) (h : a ∉ keys m) :
    emplace m a k = (a, k) :: m := by
  simp [emplace, (find_eq_none_iff m a).2 h]

/-! ## Lemmas on the free lists -/

theorem getD_set_self (l : List (List Addr)) (k : Nat) (x : List Addr) (h : k < l.length) :
    (l.set k x).getD k [] = x := by
  rw [List.getD_eq_getElem?_getD, List.getElem?_set]
  simp [h]

theorem getD_set_ne (l : List (List Addr)) (j k : Nat) (x : List Addr) (h : j ≠ k) :
    (l.set k x).getD j [] = l.getD j [] := by
  rw [List.getD_eq_getElem?_getD, List.getD_eq_getElem?_getD, List.getElem?_set]
  simp [Ne.symm h]

theorem lt_length_of_getD_ne_nil (l : List (List Addr)) (k : Nat) (h : l.getD k [] ≠ []) :
    k < l.length := by
  by_contra hk
  exact h (List.getD_eq_default l [] (Nat.le_of_not_lt hk))

theorem getD_subset_flatten (l : List (List Addr)) (k : Nat) (a : Addr) (h : a ∈ l.getD k []) :
    a ∈ l.flatten := by
  have hk : k < l.length := lt_length_of_getD_ne_nil l k (List.ne_nil_of_mem h)
  rw [List.getD_eq_getElem l [] hk] at h
  exact List.mem_flatten.2 ⟨l[k], List.getElem_mem hk, h⟩

theorem flatten_set_append (l : List (List Addr)) (k : Nat) (a : Addr) (h : k < l.length) :
    List.Perm (l.set k (l.getD k [] ++ [a])).flatten (a :: l.flatten) := by
  induction l generalizing k with
  | nil => simp at h
  | cons hd rest ih =>
    cases k with
    | zero =>
      simp only [List.set_cons_zero, List.getD_cons_zero, List.flatten_cons, List.append_assoc,
        List.singleton_append]
      exact List.perm_middle
    | succ j =>
      have hj : j < rest.length := by simpa using h
      simp only [List.set_cons_succ, List.getD_cons_succ, List.flatten_cons]
      exact (List.Perm.append_left hd (ih j hj)).trans List.perm_middle

theorem flatten_set_dropLast (l : List (List Addr)) (k : Nat) (a : Addr)
    (h : (l.getD k []).getLast? = some a) :
    List.Perm (a :: (l.set k (l.getD k []).dropLast).flatten) l.flatten := by
  induction l generalizing k with
  | nil => simp at h
  | cons hd rest ih =>
    cases k with
    | zero =>
      simp only [List.getD_cons_zero] at h
      simp only [List.set_cons_zero, List.getD_cons_zero, List.flatten_cons]
      have h2 : hd.dropLast ++ [a] = hd := List.dropLast_append_getLast? a h
      conv_rhs => rw [← h2]
      simp only [List.append_assoc, List.singleton_append]
      exact List.perm_middle.symm
    | succ j =>
      simp only [List.getD_cons_succ] at h
      simp only [List.set_cons_succ, List.getD_cons_succ, List.flatten_cons]
      exact List.perm_middle.symm.trans (List.Perm.append_left hd (ih j h))

/-! ## Lemmas on `release_reserved_blocks` -/

theorem releaseAll_nil {σ : Type} (cb : Callbacks σ) (w : World σ) :
    releaseAll cb [] w = w := rfl

theorem releaseAll_cons {σ : Type} (cb : Callbacks σ) (a : Addr) (ptrs : List Addr) (w : World σ) :
    releaseAll cb (a :: ptrs) w = releaseAll cb ptrs (callDeleter cb a w) := rfl

theorem releaseAll_append {σ : Type} (cb : Callbacks σ) (xs ys : List Addr) (w : World σ) :
    releaseAll cb (xs ++ ys) w = releaseAll cb ys (releaseAll cb xs w) := by
  unfold releaseAll
  rw [List.foldl_append]

theorem releaseAll_log {σ : Type} (cb : Callbacks σ) (ptrs : List Addr) (w : World σ) :
    (releaseAll cb ptrs w).log = w.log ++ ptrs.map Event.release := by
  induction ptrs generalizing w with
  | nil => simp [releaseAll_nil]
  | cons a rest ih =>
    rw [releaseAll_cons, ih]
    simp [callDeleter]

theorem drainBlocks_eq {σ : Type} (cb : Callbacks σ) (fuel : Nat) (ptrs : List Addr)
    (w : World σ) (h : ptrs.length ≤ fuel) :
    drainBlocks cb fuel ptrs w = ([], releaseAll cb ptrs.reverse w) := by
  induction fuel generalizing ptrs w with
  | zero =>
    have : ptrs = [] := List.length_eq_zero.1 (Nat.le_zero.1 h)
    subst this
    rfl
  | succ n ih =>
    unfold drainBlocks
    cases hl : ptrs.getLast? with
    | none =>
      have : ptrs = [] := List.getLast?_eq_none_iff.1 hl
      subst this
      rfl
    | some a =>
      have h2 : ptrs.dropLast ++ [a] = ptrs := List.dropLast_append_getLast? a hl
      have h3 : ptrs.dropLast.length ≤ n := by
        rw [List.length_dropLast]; omega
      simp only
      rw [ih ptrs.dropLast (callDeleter cb a w) h3]
      conv_rhs => rw [← h2]
      simp [releaseAll_cons]

theorem releaseLists_eq {σ : Type} (cb : Callbacks σ) (l : List (List Addr)) (w : World σ) :
    releaseLists cb l w = (List.replicate l.length [], releaseAll cb (drainOrder l) w) := by
  induction l generalizing w with
  | nil => rfl
  | cons hd rest ih =>
    unfold releaseLists
    rw [drainBlocks_eq cb hd.length hd w (Nat.le_refl _), ih]
    simp only [drainOrder, List.map_cons, List.flatten_cons, releaseAll_append, List.length_cons,
      List.replicate_succ]

theorem release_reserved_blocks_eq {σ : Type} (cb : Callbacks σ) (p : MemoryPool) (w : World σ) :
    release_reserved_blocks cb p w =
      (⟨p.id_, List.replicate p.reserved_.length [], p.supplied_⟩,
        releaseAll cb (drainOrder p.reserved_) w) := by
  unfold release_reserved_blocks
  rw [releaseLists_eq]

theorem drainOrder_perm (l : List (List Addr)) : List.Perm (drainOrder l) l.flatten := by
  induction l with
  | nil => exact List.Perm.refl _
  | cons hd rest ih =>
    simp only [drainOrder, List.map_cons, List.flatten_cons] at ih ⊢
    exact List.Perm.append (List.reverse_perm hd) ih

theorem releasedAddrs_append (xs ys : List Event) :
    releasedAddrs (xs ++ ys) = releasedAddrs xs ++ releasedAddrs ys := by
  induction xs with
  | nil => rfl
  | cons e rest ih =>
    cases e with
    | alloc c r => simpa [releasedAddrs] using ih
    | release a => simpa [releasedAddrs] using ih

theorem releasedAddrs_map_release (ptrs : List Addr) :
    releasedAddrs (ptrs.map Event.release) = ptrs := by
  induction ptrs with
  | nil => rfl
  | cons a rest ih => simp [releasedAddrs, ih]

theorem allocatedAddrs_append (xs ys : List Event) :
    allocatedAddrs (xs ++ ys) = allocatedAddrs xs ++ allocatedAddrs ys := by
  induction xs with
  | nil => rfl
  | cons e rest ih =>
    cases e with
    | alloc c r =>
      cases r with
      | none => simpa [allocatedAddrs] using ih
      | some a => simpa [allocatedAddrs] using ih
    | release a => simpa [allocatedAddrs] using ih

theorem allocatedAddrs_map_release (ptrs : List Addr) :
    allocatedAddrs (ptrs.map Event.release) = [] := by
  induction ptrs with
  | nil => rfl
  | cons a rest ih => simp [allocatedAddrs, ih]

theorem allocCalls_append (xs ys : List Event) :
    allocCalls (xs ++ ys) = allocCalls xs ++ allocCalls ys := by
  induction xs with
  | nil => rfl
  | cons e rest ih =>
    cases e with
    | alloc c r => simpa [allocCalls] using ih
    | release a => simpa [allocCalls] using ih

theorem allocCalls_map_release (ptrs : List Addr) :
    allocCalls (ptrs.map Event.release) = [] := by
  induction ptrs with
  | nil => rfl
  | cons a rest ih => simp [allocCalls, ih]

/-! ## Lemmas on the size class -/

theorem shiftSearch_ge (fuel k x : Nat) : k ≤ shiftSearch fuel k x := by
  induction fuel generalizing k with
  | zero => exact Nat.le_refl _
  | succ n ih =>
    unfold shiftSearch
    split
    · exact Nat.le_refl _
    · exact Nat.le_trans (Nat.le_succ k) (ih (k + 1))

theorem shiftSearch_le (fuel k x : Nat) : shiftSearch fuel k x ≤ k + fuel := by
  induction fuel generalizing k with
  | zero => exact Nat.le_refl _
  | succ n ih =>
    unfold shiftSearch
    split
    · omega
    · have := ih (k + 1); omega

theorem shiftSearch_hit (fuel k x : Nat) (h : shiftSearch fuel k x < k + fuel) :
    x ≤ 2 ^ shiftSearch fuel k x := by
  induction fuel generalizing k with
  | zero => simp [shiftSearch] at h
  | succ n ih =>
    unfold shiftSearch at h ⊢
    split
    · assumption
    · rename_i hx
      rw [if_neg hx] at h
      exact ih (k + 1) (by omega)

theorem shiftSearch_least (fuel k x j : Nat) (hkj : k ≤ j) (hj : j < shiftSearch fuel k x) :
    2 ^ j < x := by
  induction fuel generalizing k with
  | zero => simp only [shiftSearch] at hj; omega
  | succ n ih =>
    unfold shiftSearch at hj
    by_cases hx : x ≤ 2 ^ k
    · rw [if_pos hx] at hj; omega
    · rw [if_neg hx] at hj
      rcases Nat.eq_or_lt_of_le hkj with h1 | h1
      · subst h1; omega
      · exact ih (k + 1) h1 hj

theorem calculate_shifts_zero : calculate_shifts 0 = Except.error PoolError.InvalidSize := rfl

theorem calculate_shifts_pos (x : Nat) (h : 0 < x) :
    calculate_shifts x = Except.ok (shiftSearch 64 0 x) := by
  unfold calculate_shifts
  rw [if_neg (Nat.pos_iff_ne_zero.1 h)]

theorem shiftSearch_le_63 (x : Nat) (h : x ≤ 2 ^ 63) : shiftSearch 64 0 x ≤ 63 := by
  by_contra hc
  have h1 : 63 < shiftSearch 64 0 x := Nat.lt_of_not_le hc
  have h2 := shiftSearch_least 64 0 x 63 (Nat.zero_le _) h1
  omega

theorem shiftSearch_gt_63 (x : Nat) (h : 2 ^ 63 < x) : 63 < shiftSearch 64 0 x := by
  by_contra hc
  have h1 : shiftSearch 64 0 x ≤ 63 := Nat.le_of_not_lt hc
  have h2 : x ≤ 2 ^ shiftSearch 64 0 x := shiftSearch_hit 64 0 x (by omega)
  have h3 : 2 ^ shiftSearch 64 0 x ≤ 2 ^ 63 := Nat.pow_le_pow_right (by decide) h1
  omega

theorem shl1_eq (k : Nat) (h : k ≤ 63) : shl1 k = 2 ^ k := by
  unfold shl1
  apply Nat.mod_eq_of_lt
  exact Nat.pow_lt_pow_right (by decide) (by omega)

/-! ## The branches of `allocate` -/

theorem callAllocator_eq {σ : Type} (cb : Callbacks σ) (capacity : Nat) (w : World σ)
    (r : Option Addr) (e1 : σ) (h : cb.allocator_ capacity w.env = (r, e1)) :
    callAllocator cb capacity w = (r, ⟨e1, w.log ++ [Event.alloc capacity r]⟩) := by
  unfold callAllocator
  rw [h]

theorem allocate_error {σ : Type} (cb : Callbacks σ) (p : MemoryPool) (w : World σ) (size : Nat)
    (e : PoolError) (hs : calculate_shifts size = Except.error e) :
    allocate cb p w size = ⟨Except.error e, p, w⟩ := by
  unfold allocate
  rw [hs]

theorem allocate_too_large {σ : Type} (cb : Callbacks σ) (p : MemoryPool) (w : World σ)
    (size k : Nat) (hs : calculate_shifts size = Except.ok k) (hk : 63 < k) :
    allocate cb p w size = ⟨Except.error PoolError.InvalidSize, p, w⟩ := by
  unfold allocate
  rw [hs]
  simp only [MAX_SHIFTS, gt_iff_lt, hk, if_true]

theorem allocate_reuse {σ : Type} (cb : Callbacks σ) (p : MemoryPool) (w : World σ)
    (size k : Nat) (ptr : Addr) (hs : calculate_shifts size = Except.ok k) (hk : k ≤ 63)
    (hb : (p.bucket k).getLast? = some ptr) :
    allocate cb p w size =
      ⟨Except.ok ⟨ptr, p.id_⟩,
        ⟨p.id_, p.reserved_.set k (p.bucket k).dropLast, emplace p.supplied_ ptr k⟩, w⟩ := by
  unfold allocate
  rw [hs]
  simp only [MAX_SHIFTS, gt_iff_lt, Nat.not_lt.2 hk, if_false, hb]

theorem allocate_new {σ : Type} (cb : Callbacks σ) (p : MemoryPool) (w : World σ)
    (size k : Nat) (ptr : Addr) (e1 : σ) (hs : calculate_shifts size = Except.ok k)
    (hk : k ≤ 63) (hb : p.bucket k = [])
    (ha : cb.allocator_ (shl1 k) w.env = (some ptr, e1)) :
    allocate cb p w size =
      ⟨Except.ok ⟨ptr, p.id_⟩, ⟨p.id_, p.reserved_, emplace p.supplied_ ptr k⟩,
        ⟨e1, w.log ++ [Event.alloc (shl1 k) (some ptr)]⟩⟩ := by
  unfold allocate
  rw [hs]
  simp only [MAX_SHIFTS, gt_iff_lt, Nat.not_lt.2 hk, if_false, hb, List.getLast?_nil,
    callAllocator_eq cb _ w _ _ ha]

theorem allocate_retry_ok {σ : Type} (cb : Callbacks σ) (p : MemoryPool) (w : World σ)
    (size k : Nat) (ptr : Addr) (e1 e3 : σ) (hs : calculate_shifts size = Except.ok k)
    (hk : k ≤ 63) (hb : p.bucket k = [])
    (ha : cb.allocator_ (shl1 k) w.env = (none, e1))
    (ha2 : cb.allocator_ (shl1 k)
      (releaseAll cb (drainOrder p.reserved_) ⟨e1, w.log ++ [Event.alloc (shl1 k) none]⟩).env
        = (some ptr, e3)) :
    allocate cb p w size =
      ⟨Except.ok ⟨ptr, p.id_⟩,
        ⟨p.id_, List.replicate p.reserved_.length [], emplace p.supplied_ ptr k⟩,
        ⟨e3, (releaseAll cb (drainOrder p.reserved_)
            ⟨e1, w.log ++ [Event.alloc (shl1 k) none]⟩).log
          ++ [Event.alloc (shl1 k) (some ptr)]⟩⟩ := by
  unfold allocate
  rw [hs]
  simp only [MAX_SHIFTS, gt_iff_lt, Nat.not_lt.2 hk, if_false, hb, List.getLast?_nil,
    callAllocator_eq cb _ w _ _ ha, release_reserved_blocks_eq,
    callAllocator_eq cb _ _ _ _ ha2]

theorem allocate_retry_fail {σ : Type} (cb : Callbacks σ) (p : MemoryPool) (w : World σ)
    (size k : Nat) (e1 e3 : σ) (hs : calculate_shifts size = Except.ok k)
    (hk : k ≤ 63) (hb : p.bucket k = [])
    (ha : cb.allocator_ (shl1 k) w.env = (none, e1))
    (ha2 : cb.allocator_ (shl1 k)
      (releaseAll cb (drainOrder p.reserved_) ⟨e1, w.log ++ [Event.alloc (shl1 k) none]⟩).env
        = (none, e3)) :
    allocate cb p w size =
      ⟨Except.error PoolError.OutOfMemory,
        ⟨p.id_, List.replicate p.reserved_.length [], p.supplied_⟩,
        ⟨e3, (releaseAll cb (drainOrder p.reserved_)
            ⟨e1, w.log ++ [Event.alloc (shl1 k) none]⟩).log
          ++ [Event.alloc (shl1 k) none]⟩⟩ := by
  unfold allocate
  rw [hs]
  simp only [MAX_SHIFTS, gt_iff_lt, Nat.not_lt.2 hk, if_false, hb, List.getLast?_nil,
    callAllocator_eq cb _ w _ _ ha, release_reserved_blocks_eq,
    callAllocator_eq cb _ _ _ _ ha2]

theorem held_replicate (id n : Nat) (m : List (Addr × Nat)) :
    held ⟨id, List.replicate n [], m⟩ = keys m := by
  simp [held]

/-- The five ways a call of `allocate` can go, each with the state it leaves
and with what `freshCall` checks on it. -/
theorem allocate_cases {σ : Type} (cb : Callbacks σ) (p : MemoryPool) (w : World σ) (size : Nat) :
    ((size = 0 ∨ ∃ k, calculate_shifts size = Except.ok k ∧ 63 < k) ∧
        allocate cb p w size = ⟨Except.error PoolError.InvalidSize, p, w⟩)
    ∨ (∃ k ptr, calculate_shifts size = Except.ok k ∧ k ≤ 63 ∧
        (p.bucket k).getLast? = some ptr ∧
        allocate cb p w size =
          ⟨Except.ok ⟨ptr, p.id_⟩,
            ⟨p.id_, p.reserved_.set k (p.bucket k).dropLast, emplace p.supplied_ ptr k⟩, w⟩)
    ∨ (∃ k ptr e1, calculate_shifts size = Except.ok k ∧ k ≤ 63 ∧ p.bucket k = [] ∧
        freshCall cb p w size = decide (ptr ∉ held p) ∧
        allocate cb p w size =
          ⟨Except.ok ⟨ptr, p.id_⟩, ⟨p.id_, p.reserved_, emplace p.supplied_ ptr k⟩,
            ⟨e1, w.log ++ [Event.alloc (shl1 k) (some ptr)]⟩⟩)
    ∨ (∃ k ptr e3, calculate_shifts size = Except.ok k ∧ k ≤ 63 ∧ p.bucket k = [] ∧
        freshCall cb p w size = decide (ptr ∉ keys p.supplied_) ∧
        allocate cb p w size =
          ⟨Except.ok ⟨ptr, p.id_⟩,
            ⟨p.id_, List.replicate p.reserved_.length [], emplace p.supplied_ ptr k⟩,
            ⟨e3, w.log ++ [Event.alloc (shl1 k) none]
              ++ (drainOrder p.reserved_).map Event.release
              ++ [Event.alloc (shl1 k) (some ptr)]⟩⟩)
    ∨ (∃ k e3, calculate_shifts size = Except.ok k ∧ k ≤ 63 ∧ p.bucket k = [] ∧
        allocate cb p w size =
          ⟨Except.error PoolError.OutOfMemory,
            ⟨p.id_, List.replicate p.reserved_.length [], p.supplied_⟩,
            ⟨e3, w.log ++ [Event.alloc (shl1 k) none]
              ++ (drainOrder p.reserved_).map Event.release
              ++ [Event.alloc (shl1 k) none]⟩⟩) := by
  cases hs : calculate_shifts size with
  | error e =>
    left
    have he : e = PoolError.InvalidSize ∧ size = 0 := by
      unfold calculate_shifts at hs
      split at hs
      · rename_i h0
        exact ⟨(Except.error.inj hs).symm, h0⟩
      · cases hs
    rw [allocate_error cb p w size e hs, he.1]
    exact ⟨Or.inl he.2, rfl⟩
  | ok k =>
    by_cases hk : 63 < k
    · left
      exact ⟨Or.inr ⟨k, rfl, hk⟩, allocate_too_large cb p w size k hs hk⟩
    · have hk2 : k ≤ 63 := Nat.le_of_not_lt hk
      right
      cases hb : (p.bucket k).getLast? with
      | some ptr =>
        left
        exact ⟨k, ptr, rfl, hk2, hb, allocate_reuse cb p w size k ptr hs hk2 hb⟩
      | none =>
        right
        have hb2 : p.bucket k = [] := List.getLast?_eq_none_iff.1 hb
        rcases ha : cb.allocator_ (shl1 k) w.env with ⟨r, e1⟩
        cases r with
        | some ptr =>
          left
          refine ⟨k, ptr, e1, rfl, hk2, hb2, ?_, allocate_new cb p w size k ptr e1 hs hk2 hb2 ha⟩
          unfold freshCall
          rw [hs]
          simp only [MAX_SHIFTS, gt_iff_lt, hk, if_false, hb, callAllocator_eq cb _ w _ _ ha]
        | none =>
          right
          rcases ha2 : cb.allocator_ (shl1 k)
            (releaseAll cb (drainOrder p.reserved_)
              ⟨e1, w.log ++ [Event.alloc (shl1 k) none]⟩).env with ⟨r2, e3⟩
          cases r2 with
          | some ptr =>
            left
            refine ⟨k, ptr, e3, rfl, hk2, hb2, ?_, ?_⟩
            · unfold freshCall
              rw [hs]
              simp only [MAX_SHIFTS, gt_iff_lt, hk, if_false, hb, callAllocator_eq cb _ w _ _ ha,
                release_reserved_blocks_eq, callAllocator_eq cb _ _ _ _ ha2, held_replicate]
            · rw [allocate_retry_ok cb p w size k ptr e1 e3 hs hk2 hb2 ha ha2, releaseAll_log]
          | none =>
            right
            refine ⟨k, e3, rfl, hk2, hb2, ?_⟩
            rw [allocate_retry_fail cb p w size k e1 e3 hs hk2 hb2 ha ha2, releaseAll_log]

theorem free_cases {σ : Type} (p : MemoryPool) (w : World σ) (ptr : Addr) :
    (find p.supplied_ ptr = none ∧
      free p w ptr = ⟨Except.error PoolError.UnknownHandle, p, w⟩)
    ∨ (∃ k, find p.supplied_ ptr = some k ∧
      free p w ptr =
        ⟨Except.ok (), ⟨p.id_, p.reserved_.set k (p.bucket k ++ [ptr]), erase p.supplied_ ptr⟩,
          w⟩) := by
  unfold free
  cases h : find p.supplied_ ptr with
  | none => left; exact ⟨rfl, rfl⟩
  | some k => right; exact ⟨k, rfl, rfl⟩

/-! ## Preservation of the invariants -/

theorem WF_new (id : Nat) : WF (MemoryPool.new id) := by
  constructor
  · simp [MemoryPool.new]
  · intro e he
    simp [MemoryPool.new] at he

theorem Inv_new (id : Nat) : Inv (MemoryPool.new id) := by
  refine ⟨WF_new id, ?_⟩
  simp [held, MemoryPool.new, keys]

theorem emplace_shift_lt (m : List (Addr × Nat)) (a : Addr) (k : Nat) (hk : k < 64)
    (hm : ∀ e ∈ m, e.2 < 64) : ∀ e ∈ emplace m a k, e.2 < 64 := by
  unfold emplace
  cases find m a with
  | some _ => exact hm
  | none =>
    intro e he
    rcases List.mem_cons.1 he with h | h
    · rw [h]; exact hk
    · exact hm e h

theorem WF_allocate {σ : Type} (cb : Callbacks σ) (p : MemoryPool) (w : World σ) (size : Nat)
    (hp : WF p) : WF (allocate cb p w size).pool := by
  rcases allocate_cases cb p w size with ⟨_, h⟩ | ⟨k, ptr, _, hk, _, h⟩ |
    ⟨k, ptr, e1, _, hk, _, _, h⟩ | ⟨k, ptr, e3, _, hk, _, _, h⟩ | ⟨k, e3, _, hk, _, h⟩
  · rw [h]; exact hp
  · rw [h]
    exact ⟨by simpa using hp.1, emplace_shift_lt _ _ _ (by omega) hp.2⟩
  · rw [h]
    exact ⟨hp.1, emplace_shift_lt _ _ _ (by omega) hp.2⟩
  · rw [h]
    exact ⟨by simpa using hp.1, emplace_shift_lt _ _ _ (by omega) hp.2⟩
  · rw [h]
    exact ⟨by simpa using hp.1, hp.2⟩

theorem WF_free {σ : Type} (p : MemoryPool) (w : World σ) (ptr : Addr) (hp : WF p) :
    WF (free p w ptr).pool := by
  rcases free_cases p w ptr with ⟨_, h⟩ | ⟨k, _, h⟩
  · rw [h]; exact hp
  · rw [h]
    refine ⟨by simpa using hp.1, ?_⟩
    intro e he
    exact hp.2 e ((mem_erase_iff _ _ _).1 he).1

theorem keys_nodup_of_held {p : MemoryPool} (h : (held p).Nodup) : (keys p.supplied_).Nodup :=
  (List.nodup_append.1 h).2.1

theorem not_mem_keys_of_mem_flatten {p : MemoryPool} (h : (held p).Nodup) {a : Addr}
    (ha : a ∈ p.reserved_.flatten) : a ∉ keys p.supplied_ :=
  fun hk => (List.nodup_append.1 h).2.2 ha hk

/-- Reusing the back of a free list moves one address from the free lists to
the outstanding map. -/
theorem held_reuse_perm (p : MemoryPool) (k : Nat) (ptr : Addr) (hn : (held p).Nodup)
    (hb : (p.bucket k).getLast? = some ptr) :
    List.Perm
      (held ⟨p.id_, p.reserved_.set k (p.bucket k).dropLast, emplace p.supplied_ ptr k⟩)
      (held p) := by
  have hmem : ptr ∈ p.reserved_.flatten := by
    apply getD_subset_flatten p.reserved_ k
    have := List.dropLast_append_getLast? ptr hb
    unfold MemoryPool.bucket at this
    rw [← this]
    simp
  have hnot : ptr ∉ keys p.supplied_ := not_mem_keys_of_mem_flatten hn hmem
  have hperm := flatten_set_dropLast p.reserved_ k ptr hb
  simp only [held, emplace_of_not_mem _ _ _ hnot, MemoryPool.bucket]
  have hk : keys ((ptr, k) :: p.supplied_) = ptr :: keys p.supplied_ := rfl
  rw [hk]
  exact List.perm_middle.trans (List.Perm.append_right _ hperm)

/-- Releasing an outstanding address moves it from the outstanding map to the
free lists. -/
theorem held_free_perm (p : MemoryPool) (k : Nat) (ptr : Addr) (hp : WF p)
    (hn : (keys p.supplied_).Nodup) (hf : find p.supplied_ ptr = some k) :
    List.Perm
      (held ⟨p.id_, p.reserved_.set k (p.bucket k ++ [ptr]), erase p.supplied_ ptr⟩)
      (held p) := by
  have hk : k < p.reserved_.length := by
    rw [hp.1]; exact hp.2 _ (find_some_mem _ _ _ hf)
  have hmem : ptr ∈ keys p.supplied_ := by
    by_contra hc
    rw [(find_eq_none_iff _ _).2 hc] at hf
    cases hf
  have h1 := flatten_set_append p.reserved_ k ptr hk
  have h2 := keys_perm_erase p.supplied_ ptr hn hmem
  simp only [held, MemoryPool.bucket]
  refine (List.Perm.append_right _ h1).trans ?_
  refine List.Perm.trans ?_ (List.Perm.append_left _ h2.symm)
  exact List.perm_middle.symm

theorem Inv_allocate {σ : Type} (cb : Callbacks σ) (p : MemoryPool) (w : World σ) (size : Nat)
    (hp : Inv p) (hfresh : freshCall cb p w size = true) : Inv (allocate cb p w size).pool := by
  refine ⟨WF_allocate cb p w size hp.1, ?_⟩
  rcases allocate_cases cb p w size with ⟨_, h⟩ | ⟨k, ptr, _, hk, hb, h⟩ |
    ⟨k, ptr, e1, _, hk, _, hf, h⟩ | ⟨k, ptr, e3, _, hk, _, hf, h⟩ | ⟨k, e3, _, hk, _, h⟩
  · rw [h]; exact hp.2
  · rw [h]
    exact (held_reuse_perm p k ptr hp.2 hb).nodup_iff.2 hp.2
  · rw [h]
    rw [hf, decide_eq_true_eq] at hfresh
    have hnot : ptr ∉ keys p.supplied_ := fun hc => hfresh (List.mem_append_right _ hc)
    simp only [held, emplace_of_not_mem _ _ _ hnot]
    have hk2 : keys ((ptr, k) :: p.supplied_) = ptr :: keys p.supplied_ := rfl
    rw [hk2]
    exact (List.perm_middle.nodup_iff).2 (List.nodup_cons.2 ⟨hfresh, hp.2⟩)
  · rw [h]
    rw [hf, decide_eq_true_eq] at hfresh
    rw [held_replicate, emplace_of_not_mem _ _ _ hfresh]
    exact List.nodup_cons.2 ⟨hfresh, keys_nodup_of_held hp.2⟩
  · rw [h, held_replicate]
    exact keys_nodup_of_held hp.2

theorem Inv_free {σ : Type} (p : MemoryPool) (w : World σ) (ptr : Addr) (hp : Inv p) :
    Inv (free p w ptr).pool := by
  refine ⟨WF_free p w ptr hp.1, ?_⟩
  rcases free_cases p w ptr with ⟨_, h⟩ | ⟨k, hf, h⟩
  · rw [h]; exact hp.2
  · rw [h]
    exact (held_free_perm p k ptr hp.1 (keys_nodup_of_held hp.2) hf).nodup_iff.2 hp.2

theorem Inv_run {σ : Type} (cb : Callbacks σ) (s : MemoryPool × World σ) (ops : List Op)
    (hp : Inv s.1) (hfresh : freshRun cb s ops = true) : Inv (run cb s ops).1 := by
  induction ops generalizing s with
  | nil => exact hp
  | cons op rest ih =>
    cases op with
    | allocate size =>
      simp only [freshRun, Bool.and_eq_true] at hfresh
      exact ih (step cb s (Op.allocate size)) (Inv_allocate cb s.1 s.2 size hp hfresh.1) hfresh.2
    | free ptr =>
      simp only [freshRun] at hfresh
      exact ih (step cb s (Op.free ptr)) (Inv_free s.1 s.2 ptr hp) hfresh

theorem mem_keys_emplace (m : List (Addr × Nat)) (a : Addr) (k : Nat) :
    a ∈ keys (emplace m a k) := by
  unfold emplace
  cases h : find m a with
  | some j =>
    by_contra hc
    rw [(find_eq_none_iff m a).2 hc] at h
    cases h
  | none => simp [keys]

theorem allocate_ok_mem_keys {σ : Type} (cb : Callbacks σ) (p : MemoryPool) (w : World σ)
    (size : Nat) (h : Handle) (hr : (allocate cb p w size).result = Except.ok h) :
    h.ptr ∈ keys (allocate cb p w size).pool.supplied_ := by
  rcases allocate_cases cb p w size with ⟨_, he⟩ | ⟨k, ptr, _, _, _, he⟩ |
    ⟨k, ptr, e1, _, _, _, _, he⟩ | ⟨k, ptr, e3, _, _, _, _, he⟩ | ⟨k, e3, _, _, _, he⟩
  · rw [he] at hr; cases hr
  · rw [he] at hr ⊢
    cases hr
    exact mem_keys_emplace _ _ _
  · rw [he] at hr ⊢
    cases hr
    exact mem_keys_emplace _ _ _
  · rw [he] at hr ⊢
    cases hr
    exact mem_keys_emplace _ _ _
  · rw [he] at hr; cases hr

theorem free_ok {σ : Type} (p : MemoryPool) (w : World σ) (ptr : Addr) (k : Nat)
    (hf : find p.supplied_ ptr = some k) :
    free p w ptr =
      ⟨Except.ok (), ⟨p.id_, p.reserved_.set k (p.bucket k ++ [ptr]), erase p.supplied_ ptr⟩, w⟩ := by
  unfold free
  rw [hf]

theorem free_unknown {σ : Type} (p : MemoryPool) (w : World σ) (ptr : Addr)
    (hf : find p.supplied_ ptr = none) :
    free p w ptr = ⟨Except.error PoolError.UnknownHandle, p, w⟩ := by
  unfold free
  rw [hf]

theorem shift_lt_length (p : MemoryPool) (ptr : Addr) (k : Nat) (hp : WF p)
    (hf : find p.supplied_ ptr = some k) : k < p.reserved_.length := by
  rw [hp.1]
  exact hp.2 _ (find_some_mem _ _ _ hf)

theorem two_pow_pred_lt (k s : Nat) (hk : 0 < k) (h : 2 ^ (k - 1) < s) : 2 ^ k < 2 * s := by
  have : 2 ^ k = 2 * 2 ^ (k - 1) := by
    conv_lhs => rw [show k = (k - 1) + 1 by omega]
    rw [Nat.pow_succ, Nat.mul_comm]
  omega

/-! ## Teardown -/

theorem keys_nodup_erase (m : List (Addr × Nat)) (a : Addr) (h : (keys m).Nodup) :
    (keys (erase m a)).Nodup := by
  by_cases hm : a ∈ keys m
  · exact (List.nodup_cons.1 ((keys_perm_erase m a h hm).nodup_iff.1 h)).2
  · have : erase m a = m := by
      clear h
      induction m with
      | nil => rfl
      | cons e rest ih =>
        have he : ¬ e.1 = a := fun hc =>
          hm (by rw [← hc]; exact List.mem_map_of_mem Prod.fst (List.mem_cons_self e rest))
        have hr : a ∉ keys rest := fun hr => hm (List.mem_cons_of_mem _ hr)
        rw [erase, if_neg he, ih hr]
    rw [this]
    exact h

theorem keys_nodup_emplace (m : List (Addr × Nat)) (a : Addr) (k : Nat) (h : (keys m).Nodup) :
    (keys (emplace m a k)).Nodup := by
  unfold emplace
  cases hf : find m a with
  | some _ => exact h
  | none => exact List.nodup_cons.2 ⟨(find_eq_none_iff m a).1 hf, h⟩

theorem keys_nodup_allocate {σ : Type} (cb : Callbacks σ) (p : MemoryPool) (w : World σ)
    (size : Nat) (h : (keys p.supplied_).Nodup) :
    (keys (allocate cb p w size).pool.supplied_).Nodup := by
  rcases allocate_cases cb p w size with ⟨_, he⟩ | ⟨k, ptr, _, _, _, he⟩ |
    ⟨k, ptr, e1, _, _, _, _, he⟩ | ⟨k, ptr, e3, _, _, _, _, he⟩ | ⟨k, e3, _, _, _, he⟩
  · rw [he]; exact h
  · rw [he]; exact keys_nodup_emplace _ _ _ h
  · rw [he]; exact keys_nodup_emplace _ _ _ h
  · rw [he]; exact keys_nodup_emplace _ _ _ h
  · rw [he]; exact h

theorem keys_nodup_free {σ : Type} (p : MemoryPool) (w : World σ) (ptr : Addr)
    (h : (keys p.supplied_).Nodup) : (keys (free p w ptr).pool.supplied_).Nodup := by
  rcases free_cases p w ptr with ⟨_, he⟩ | ⟨k, _, he⟩
  · rw [he]; exact h
  · rw [he]; exact keys_nodup_erase _ _ h

/-- The shape of the pool and the uniqueness of the keys of the outstanding map
survive every sequence of operations, whatever the callbacks do. -/
theorem shape_run {σ : Type} (cb : Callbacks σ) (s : MemoryPool × World σ) (ops : List Op)
    (hp : WF s.1) (hk : (keys s.1.supplied_).Nodup) :
    WF (run cb s ops).1 ∧ (keys (run cb s ops).1.supplied_).Nodup := by
  induction ops generalizing s with
  | nil => exact ⟨hp, hk⟩
  | cons op rest ih =>
    cases op with
    | allocate size =>
      exact ih (step cb s (Op.allocate size)) (WF_allocate cb s.1 s.2 size hp)
        (keys_nodup_allocate cb s.1 s.2 size hk)
    | free ptr =>
      exact ih (step cb s (Op.free ptr)) (WF_free s.1 s.2 ptr hp) (keys_nodup_free s.1 s.2 ptr hk)

theorem flushSupplied_spec {σ : Type} (fuel : Nat) (p : MemoryPool) (w : World σ) (hp : WF p)
    (hk : (keys p.supplied_).Nodup) (hfuel : p.supplied_.length ≤ fuel) :
    (flushSupplied fuel p w).result = Except.ok ()
    ∧ (flushSupplied fuel p w).pool.supplied_ = []
    ∧ (flushSupplied fuel p w).pool.id_ = p.id_
    ∧ (flushSupplied fuel p w).world = w
    ∧ (flushSupplied fuel p w).pool.reserved_.length = 64
    ∧ List.Perm (flushSupplied fuel p w).pool.reserved_.flatten (held p) := by
  induction fuel generalizing p with
  | zero =>
    have hnil : p.supplied_ = [] := List.length_eq_zero.1 (Nat.le_zero.1 hfuel)
    refine ⟨rfl, hnil, rfl, rfl, hp.1, ?_⟩
    simp [flushSupplied, held, hnil, keys]
  | succ n ih =>
    cases hsup : p.supplied_ with
    | nil =>
      have h1 : flushSupplied (n + 1) p w = ⟨Except.ok (), p, w⟩ := by
        simp only [flushSupplied, hsup]
      rw [h1]
      refine ⟨rfl, hsup, rfl, rfl, hp.1, ?_⟩
      simp [held, hsup, keys]
    | cons e rest =>
      have hf : find p.supplied_ e.1 = some e.2 := by
        rw [hsup, find_cons, if_pos rfl]
      have hfree := free_ok p w e.1 e.2 hf
      have h1 : flushSupplied (n + 1) p w
          = flushSupplied n (free p w e.1).pool (free p w e.1).world := by
        simp only [flushSupplied, hsup, hfree]
      have hwf : WF (free p w e.1).pool := WF_free p w e.1 hp
      have hk2 : (keys (free p w e.1).pool.supplied_).Nodup := keys_nodup_free p w e.1 hk
      have hlen : (free p w e.1).pool.supplied_.length ≤ n := by
        rw [hfree]
        simp only
        rw [hsup] at hfuel ⊢
        have h2 : erase (e :: rest) e.1 = erase rest e.1 := by
          rw [erase, if_pos rfl]
        rw [h2]
        have := erase_length_le rest e.1
        simp only [List.length_cons] at hfuel
        omega
      have hrec := ih (free p w e.1).pool hwf hk2 hlen
      have hw : (free p w e.1).world = w := by rw [hfree]
      rw [h1, hw]
      refine ⟨hrec.1, hrec.2.1, ?_, ?_, hrec.2.2.2.2.1, ?_⟩
      · rw [hrec.2.2.1, hfree]
      · exact hrec.2.2.2.1
      · refine hrec.2.2.2.2.2.trans ?_
        rw [hfree]
        exact held_free_perm p e.2 e.1 hp hk hf

theorem destroy_spec {σ : Type} (cb : Callbacks σ) (p : MemoryPool) (w : World σ) (hp : WF p)
    (hk : (keys p.supplied_).Nodup) :
    (destroy cb p w).result = Except.ok ()
    ∧ (destroy cb p w).pool = ⟨p.id_, List.replicate 64 [], []⟩
    ∧ (destroy cb p w).world.log =
        w.log ++ (drainOrder (flushSupplied p.supplied_.length p w).pool.reserved_).map
          Event.release
    ∧ List.Perm (drainOrder (flushSupplied p.supplied_.length p w).pool.reserved_) (held p) := by
  have h := flushSupplied_spec p.supplied_.length p w hp hk (Nat.le_refl _)
  have hd : destroy cb p w =
      ⟨Except.ok (),
        (release_reserved_blocks cb (flushSupplied p.supplied_.length p w).pool
          (flushSupplied p.supplied_.length p w).world).1,
        (release_reserved_blocks cb (flushSupplied p.supplied_.length p w).pool
          (flushSupplied p.supplied_.length p w).world).2⟩ := by
    simp only [destroy, h.1]
  rw [hd, release_reserved_blocks_eq]
  refine ⟨rfl, ?_, ?_, (drainOrder_perm _).trans h.2.2.2.2.2⟩
  · simp only
    rw [h.2.1, h.2.2.1, h.2.2.2.2.1]
  · simp only
    rw [releaseAll_log, h.2.2.2.1]

theorem releaseAll_env {σ : Type} (cb : Callbacks σ) (ptrs : List Addr) (w : World σ) :
    (releaseAll cb ptrs w).env = ptrs.foldl (fun e a => cb.deleter_ a e) w.env := by
  induction ptrs generalizing w with
  | nil => rfl
  | cons a rest ih =>
    rw [releaseAll_cons, ih]
    rfl

/-- The environment left by the destructor: the release callback applied, one
block after the other, to the blocks that the drain visits. -/
theorem destroy_env {σ : Type} (cb : Callbacks σ) (p : MemoryPool) (w : World σ) (hp : WF p)
    (hk : (keys p.supplied_).Nodup) :
    (destroy cb p w).world.env =
      (drainOrder (flushSupplied p.supplied_.length p w).pool.reserved_).foldl
        (fun e a => cb.deleter_ a e) w.env := by
  have h := flushSupplied_spec p.supplied_.length p w hp hk (Nat.le_refl _)
  have hd : destroy cb p w =
      ⟨Except.ok (),
        (release_reserved_blocks cb (flushSupplied p.supplied_.length p w).pool
          (flushSupplied p.supplied_.length p w).world).1,
        (release_reserved_blocks cb (flushSupplied p.supplied_.length p w).pool
          (flushSupplied p.supplied_.length p w).world).2⟩ := by
    simp only [destroy, h.1]
  rw [hd, release_reserved_blocks_eq]
  simp only
  rw [releaseAll_env, h.2.2.2.1]

/-! ## The balance between allocations and releases -/

theorem allocatedAddrs_snoc_some (l : List Event) (c : Nat) (a : Addr) :
    allocatedAddrs (l ++ [Event.alloc c (some a)]) = allocatedAddrs l ++ [a] := by
  rw [allocatedAddrs_append]; rfl

theorem allocatedAddrs_snoc_none (l : List Event) (c : Nat) :
    allocatedAddrs (l ++ [Event.alloc c none]) = allocatedAddrs l := by
  rw [allocatedAddrs_append]; simp [allocatedAddrs]

theorem releasedAddrs_snoc_alloc (l : List Event) (c : Nat) (r : Option Addr) :
    releasedAddrs (l ++ [Event.alloc c r]) = releasedAddrs l := by
  rw [releasedAddrs_append]; simp [releasedAddrs]

/-- Every block obtained from the allocation callback has either been passed to
the release callback or is held by the pool: preserved by `allocate`. -/
theorem balance_allocate {σ : Type} (cb : Callbacks σ) (p : MemoryPool) (w : World σ)
    (size : Nat) (hp : Inv p) (hfresh : freshCall cb p w size = true)
    (hbal : List.Perm (allocatedAddrs w.log) (releasedAddrs w.log ++ held p)) :
    List.Perm (allocatedAddrs (allocate cb p w size).world.log)
      (releasedAddrs (allocate cb p w size).world.log ++ held (allocate cb p w size).pool) := by
  rcases allocate_cases cb p w size with ⟨_, h⟩ | ⟨k, ptr, _, hk, hb, h⟩ |
    ⟨k, ptr, e1, _, hk, _, hf, h⟩ | ⟨k, ptr, e3, _, hk, _, hf, h⟩ | ⟨k, e3, _, hk, _, h⟩
  · rw [h]; exact hbal
  · rw [h]
    exact hbal.trans (List.Perm.append_left _ (held_reuse_perm p k ptr hp.2 hb).symm)
  · rw [h]
    rw [hf, decide_eq_true_eq] at hfresh
    have hnot : ptr ∉ keys p.supplied_ := fun hc => hfresh (List.mem_append_right _ hc)
    simp only [allocatedAddrs_snoc_some, releasedAddrs_snoc_alloc, held,
      emplace_of_not_mem _ _ _ hnot]
    have hk2 : keys ((ptr, k) :: p.supplied_) = ptr :: keys p.supplied_ := rfl
    rw [hk2]
    rw [List.perm_iff_count] at hbal ⊢
    intro a
    have := hbal a
    simp only [held, List.count_append, List.count_cons, List.count_nil] at this ⊢
    omega
  · rw [h]
    rw [hf, decide_eq_true_eq] at hfresh
    rw [held_replicate, emplace_of_not_mem _ _ _ hfresh]
    have hk2 : keys ((ptr, k) :: p.supplied_) = ptr :: keys p.supplied_ := rfl
    simp only [allocatedAddrs_snoc_some, allocatedAddrs_snoc_none, releasedAddrs_snoc_alloc,
      allocatedAddrs_append, releasedAddrs_append, allocatedAddrs_map_release,
      releasedAddrs_map_release, hk2, List.append_nil, allocatedAddrs, releasedAddrs]
    have hd := drainOrder_perm p.reserved_
    rw [List.perm_iff_count] at hbal hd ⊢
    intro a
    have := hbal a
    have := hd a
    simp only [held, List.count_append, List.count_cons, List.count_nil] at *
    omega
  · rw [h, held_replicate]
    simp only [allocatedAddrs_snoc_none, releasedAddrs_snoc_alloc,
      allocatedAddrs_append, releasedAddrs_append, allocatedAddrs_map_release,
      releasedAddrs_map_release, List.append_nil, allocatedAddrs, releasedAddrs]
    have hd := drainOrder_perm p.reserved_
    rw [List.perm_iff_count] at hbal hd ⊢
    intro a
    have := hbal a
    have := hd a
    simp only [held, List.count_append, List.count_cons, List.count_nil] at *
    omega

theorem balance_free {σ : Type} (p : MemoryPool) (w : World σ) (ptr : Addr) (hp : Inv p)
    (hbal : List.Perm (allocatedAddrs w.log) (releasedAddrs w.log ++ held p)) :
    List.Perm (allocatedAddrs (free p w ptr).world.log)
      (releasedAddrs (free p w ptr).world.log ++ held (free p w ptr).pool) := by
  rcases free_cases p w ptr with ⟨_, h⟩ | ⟨k, hf, h⟩
  · rw [h]; exact hbal
  · rw [h]
    exact hbal.trans (List.Perm.append_left _
      (held_free_perm p k ptr hp.1 (keys_nodup_of_held hp.2) hf).symm)

theorem balance_run {σ : Type} (cb : Callbacks σ) (s : MemoryPool × World σ) (ops : List Op)
    (hp : Inv s.1) (hfresh : freshRun cb s ops = true)
    (hbal : List.Perm (allocatedAddrs s.2.log) (releasedAddrs s.2.log ++ held s.1)) :
    List.Perm (allocatedAddrs (run cb s ops).2.log)
      (releasedAddrs (run cb s ops).2.log ++ held (run cb s ops).1) := by
  induction ops generalizing s with
  | nil => exact hbal
  | cons op rest ih =>
    cases op with
    | allocate size =>
      simp only [freshRun, Bool.and_eq_true] at hfresh
      exact ih (step cb s (Op.allocate size)) (Inv_allocate cb s.1 s.2 size hp hfresh.1) hfresh.2
        (balance_allocate cb s.1 s.2 size hp hfresh.1 hbal)
    | free ptr =>
      simp only [freshRun] at hfresh
      exact ih (step cb s (Op.free ptr)) (Inv_free s.1 s.2 ptr hp) hfresh
        (balance_free s.1 s.2 ptr hp hbal)

/-! ## Lemmas on the work-group size helpers -/

theorem pow_mod32_le (c : Nat) : 2 ^ c % 2 ^ 32 ≤ 2 ^ 31 := by
  by_cases h : c ≤ 31
  · have h1 : 2 ^ c ≤ 2 ^ 31 := Nat.pow_le_pow_right (by decide) h
    exact Nat.le_trans (Nat.mod_le _ _) h1
  · have h2 : c = 32 + (c - 32) := by omega
    rw [h2, Nat.pow_add, Nat.mul_mod_right]
    exact Nat.zero_le _

theorem pow_mod32_small (c : Nat) (h : c ≤ 31) : 2 ^ c % 2 ^ 32 = 2 ^ c := by
  apply Nat.mod_eq_of_lt
  exact Nat.pow_lt_pow_right (by decide) (by omega)

theorem shl32_pow (c : Nat) : shl32 (2 ^ c % 2 ^ 32) = 2 ^ (c + 1) % 2 ^ 32 := by
  unfold shl32
  have h : 2 ^ (c + 1) = 2 ^ c * 2 := Nat.pow_succ 2 c
  rw [h, Nat.mul_mod (2 ^ c) 2, Nat.mul_mod (2 ^ c % 2 ^ 32) 2, Nat.mod_mod]

theorem mul32_pow (a b : Nat) : mul32 (2 ^ a % 2 ^ 32) (2 ^ b % 2 ^ 32) = 2 ^ (a + b) % 2 ^ 32 := by
  unfold mul32
  have h : 2 ^ (a + b) = 2 ^ a * 2 ^ b := Nat.pow_add 2 a b
  rw [h, Nat.mul_mod (2 ^ a) (2 ^ b)]

theorem exp_lt_31 (size i : Nat) (h1 : 2 ^ i ≤ size) (h2 : size < 2 ^ 31) : i < 31 := by
  by_contra hc
  have : 2 ^ 31 ≤ 2 ^ i := Nat.pow_le_pow_right (by decide) (Nat.le_of_not_lt hc)
  omega

theorem calc_dim1_loop_spec (size : Nat) (h2 : size < 2 ^ 31) (fuel i : Nat)
    (h1 : 2 ^ i ≤ size) (hf : 32 ≤ fuel + i) :
    ∃ n, calc_dim1_loop fuel size (2 ^ i) = some (2 ^ n) ∧ 2 ^ n ≤ size ∧ size < 2 ^ (n + 1) := by
  have hi : i < 31 := exp_lt_31 size i h1 h2
  induction fuel generalizing i with
  | zero => omega
  | succ m ih =>
    have hs : shl32 (2 ^ i) = 2 ^ (i + 1) := by
      have := shl32_pow i
      rw [pow_mod32_small i (by omega), pow_mod32_small (i + 1) (by omega)] at this
      exact this
    unfold calc_dim1_loop
    rw [hs]
    by_cases hc : 2 ^ (i + 1) ≤ size
    · rw [if_pos hc]
      exact ih (i + 1) hc (by omega) (exp_lt_31 size (i + 1) hc h2)
    · rw [if_neg hc]
      exact ⟨i, rfl, h1, Nat.lt_of_not_le hc⟩

theorem calc_dim2_loop_spec (size : Nat) (h2 : size < 2 ^ 31) (fuel a b : Nat) (p : Bool)
    (hp : (p = true ∧ a = b) ∨ (p = false ∧ a = b + 1))
    (h1 : 2 ^ (a + b) ≤ size) (hf : 32 ≤ fuel + (a + b)) :
    ∃ n m, calc_dim2_loop fuel size (2 ^ a) (2 ^ b) p = some (2 ^ n, 2 ^ m)
      ∧ 2 ^ (n + m) ≤ size ∧ size < 2 ^ (n + m + 1) ∧ (n = m ∨ n = m + 1) := by
  have hi : a + b < 31 := exp_lt_31 size (a + b) h1 h2
  induction fuel generalizing a b p with
  | zero => omega
  | succ k ih =>
    have hm : mul32 (2 ^ a) (2 ^ b) = 2 ^ (a + b) := by
      have := mul32_pow a b
      rw [pow_mod32_small a (by omega), pow_mod32_small b (by omega),
        pow_mod32_small (a + b) (by omega)] at this
      exact this
    have hs : shl32 (2 ^ (a + b)) = 2 ^ (a + b + 1) := by
      have := shl32_pow (a + b)
      rw [pow_mod32_small (a + b) (by omega), pow_mod32_small (a + b + 1) (by omega)] at this
      exact this
    have hsa : shl32 (2 ^ a) = 2 ^ (a + 1) := by
      have := shl32_pow a
      rw [pow_mod32_small a (by omega), pow_mod32_small (a + 1) (by omega)] at this
      exact this
    have hsb : shl32 (2 ^ b) = 2 ^ (b + 1) := by
      have := shl32_pow b
      rw [pow_mod32_small b (by omega), pow_mod32_small (b + 1) (by omega)] at this
      exact this
    unfold calc_dim2_loop
    rw [hm, hs]
    by_cases hc : 2 ^ (a + b + 1) ≤ size
    · rw [if_pos hc]
      have hi2 : a + b + 1 < 31 := exp_lt_31 size (a + b + 1) hc h2
      rcases hp with ⟨hp1, hab⟩ | ⟨hp1, hab⟩
      · subst hp1
        simp only [if_true, hsa, Bool.not_true]
        exact ih (a + 1) b false (Or.inr ⟨rfl, by omega⟩)
          (by rw [show a + 1 + b = a + b + 1 by omega]; exact hc) (by omega) (by omega)
      · subst hp1
        simp only [Bool.false_eq_true, if_false, hsb, Bool.not_false]
        exact ih a (b + 1) true (Or.inl ⟨rfl, by omega⟩)
          (by rw [show a + (b + 1) = a + b + 1 by omega]; exact hc) (by omega) (by omega)
    · rw [if_neg hc]
      refine ⟨a, b, rfl, h1, Nat.lt_of_not_le hc, ?_⟩
      rcases hp with ⟨_, hab⟩ | ⟨_, hab⟩
      · exact Or.inl hab
      · exact Or.inr hab

theorem calc_dim1_loop_diverges (size : Nat) (h : 2 ^ 31 ≤ size) (fuel c : Nat) :
    calc_dim1_loop fuel size (2 ^ c % 2 ^ 32) = none := by
  induction fuel generalizing c with
  | zero => rfl
  | succ k ih =>
    unfold calc_dim1_loop
    rw [shl32_pow, if_pos (Nat.le_trans (pow_mod32_le (c + 1)) h)]
    exact ih (c + 1)

theorem calc_dim2_loop_diverges (size : Nat) (h : 2 ^ 31 ≤ size) (fuel a b : Nat) (p : Bool) :
    calc_dim2_loop fuel size (2 ^ a % 2 ^ 32) (2 ^ b % 2 ^ 32) p = none := by
  induction fuel generalizing a b p with
  | zero => rfl
  | succ k ih =>
    unfold calc_dim2_loop
    rw [mul32_pow, shl32_pow, if_pos (Nat.le_trans (pow_mod32_le (a + b + 1)) h)]
    cases p with
    | true =>
      simp only [if_true, shl32_pow]
      exact ih (a + 1) b _
    | false =>
      simp only [Bool.false_eq_true, if_false, shl32_pow]
      exact ih a (b + 1) _

/-! ## Lemmas on the registry of pools -/

theorem get_object_eq_none_iff (objs : List MemoryPool) (i : Nat) :
    get_object objs i = none ↔ i ∉ ids objs := by
  unfold get_object ids
  rw [List.find?_eq_none]
  simp only [decide_eq_true_eq, List.mem_map, not_exists, not_and]

theorem ids_putPool (objs : List MemoryPool) (p : MemoryPool) :
    ids (putPool objs p) = ids objs := by
  unfold ids putPool
  rw [List.map_map]
  apply List.map_congr_left
  intro q _
  simp only [Function.comp]
  split
  · rename_i h; exact h.symm
  · rfl

theorem mem_ids_filter (objs : List MemoryPool) (i j : Nat)
    (h : j ∈ ids (objs.filter (fun q => decide (q.id_ ≠ i)))) : j ∈ ids objs ∧ j ≠ i := by
  unfold ids at h ⊢
  rw [List.mem_map] at h ⊢
  obtain ⟨q, hq, hj⟩ := h
  rw [List.mem_filter, decide_eq_true_eq] at hq
  exact ⟨⟨q, hq.1, hj⟩, hj ▸ hq.2⟩

theorem allocate_id {σ : Type} (cb : Callbacks σ) (p : MemoryPool) (w : World σ) (size : Nat) :
    (allocate cb p w size).pool.id_ = p.id_ := by
  rcases allocate_cases cb p w size with ⟨_, he⟩ | ⟨k, ptr, _, _, _, he⟩ |
    ⟨k, ptr, e1, _, _, _, _, he⟩ | ⟨k, ptr, e3, _, _, _, _, he⟩ | ⟨k, e3, _, _, _, he⟩ <;>
  rw [he]

theorem allocate_handle_id {σ : Type} (cb : Callbacks σ) (p : MemoryPool) (w : World σ)
    (size : Nat) (h : Handle) (hr : (allocate cb p w size).result = Except.ok h) :
    h.pool_id = p.id_ := by
  rcases allocate_cases cb p w size with ⟨_, he⟩ | ⟨k, ptr, _, _, _, he⟩ |
    ⟨k, ptr, e1, _, _, _, _, he⟩ | ⟨k, ptr, e3, _, _, _, _, he⟩ | ⟨k, e3, _, _, _, he⟩ <;>
  rw [he] at hr <;> cases hr <;> rfl

theorem get_object_id (objs : List MemoryPool) (i : Nat) (p : MemoryPool)
    (h : get_object objs i = some p) : p.id_ = i := by
  unfold get_object at h
  have := List.find?_some h
  simpa using this

/-- An id that has been assigned and is not registered stays so, whatever
happens next: ids are handed out in increasing order and never reused. -/
theorem dead_step {σ : Type} (cbs : Nat → Callbacks σ) (r : Registry σ) (op : SysOp) (i : Nat)
    (hi : i < r.next_id_) (hd : i ∉ ids r.objects_) :
    i < (sysStep cbs r op).next_id_ ∧ i ∉ ids (sysStep cbs r op).objects_ := by
  cases op with
  | construct =>
    refine ⟨Nat.lt_succ_of_lt hi, ?_⟩
    intro hm
    simp only [sysStep, Registry.construct, ids, List.map_cons, List.mem_cons] at hm
    rcases hm with h1 | h1
    · simp only [MemoryPool.new] at h1
      omega
    · exact hd h1
  | allocate id size =>
    simp only [sysStep, Registry.allocate]
    cases get_object r.objects_ id with
    | none => exact ⟨hi, hd⟩
    | some p =>
      refine ⟨hi, ?_⟩
      simp only
      rw [ids_putPool]
      exact hd
  | release h =>
    simp only [sysStep, Deleter]
    cases get_object r.objects_ h.pool_id with
    | none => exact ⟨hi, hd⟩
    | some p =>
      refine ⟨hi, ?_⟩
      simp only
      rw [ids_putPool]
      exact hd
  | destruct id =>
    simp only [sysStep, Registry.destruct]
    cases get_object r.objects_ id with
    | none => exact ⟨hi, hd⟩
    | some p =>
      refine ⟨hi, ?_⟩
      intro hm
      exact hd (mem_ids_filter _ _ _ hm).1

theorem dead_run {σ : Type} (cbs : Nat → Callbacks σ) (r : Registry σ) (ops : List SysOp)
    (i : Nat) (hi : i < r.next_id_) (hd : i ∉ ids r.objects_) :
    i < (sysRun cbs r ops).next_id_ ∧ i ∉ ids (sysRun cbs r ops).objects_ := by
  induction ops generalizing r with
  | nil => exact ⟨hi, hd⟩
  | cons op rest ih =>
    have h := dead_step cbs r op i hi hd
    exact ih (sysStep cbs r op) h.1 h.2

theorem destruct_dead {σ : Type} (cbs : Nat → Callbacks σ) (r : Registry σ) (i : Nat) :
    (r.destruct cbs i).next_id_ = r.next_id_ ∧ i ∉ ids (r.destruct cbs i).objects_ := by
  unfold Registry.destruct
  cases h : get_object r.objects_ i with
  | none => exact ⟨rfl, (get_object_eq_none_iff _ _).1 h⟩
  | some p =>
    refine ⟨rfl, ?_⟩
    intro hm
    exact (mem_ids_filter _ _ _ hm).2 rfl

/-! ## Lemmas on the capacity of blocks -/

theorem liveCap_snoc_some (log : List Event) (c : Nat) (b a : Addr) :
    liveCap (log ++ [Event.alloc c (some b)]) a = if b = a then some c else liveCap log a := by
  unfold liveCap
  rw [List.foldl_append]
  rfl

theorem liveCap_snoc_none (log : List Event) (c : Nat) (a : Addr) :
    liveCap (log ++ [Event.alloc c none]) a = liveCap log a := by
  unfold liveCap
  rw [List.foldl_append]
  rfl

theorem liveCap_snoc_release (log : List Event) (b a : Addr) :
    liveCap (log ++ [Event.release b]) a = if b = a then none else liveCap log a := by
  unfold liveCap
  rw [List.foldl_append]
  rfl

theorem liveCap_releases (log : List Event) (ptrs : List Addr) (a : Addr) (h : a ∉ ptrs) :
    liveCap (log ++ ptrs.map Event.release) a = liveCap log a := by
  induction ptrs generalizing log with
  | nil => simp
  | cons b rest ih =>
    have hb : ¬ b = a := fun hc => h (hc ▸ List.mem_cons_self b rest)
    have hr : a ∉ rest := fun hc => h (List.mem_cons_of_mem _ hc)
    have : log ++ (b :: rest).map Event.release
        = (log ++ [Event.release b]) ++ rest.map Event.release := by simp
    rw [this, ih _ hr, liveCap_snoc_release, if_neg hb]

theorem mem_getD_set (l : List (List Addr)) (j k : Nat) (x : List Addr) (a : Addr)
    (h : a ∈ (l.set k x).getD j []) : (j = k ∧ a ∈ x) ∨ a ∈ l.getD j [] := by
  by_cases hjk : j = k
  · subst hjk
    by_cases hlen : j < l.length
    · rw [getD_set_self l j x hlen] at h
      exact Or.inl ⟨rfl, h⟩
    · rw [List.set_eq_of_length_le (Nat.le_of_not_lt hlen)] at h
      exact Or.inr h
  · rw [getD_set_ne l j k x hjk] at h
    exact Or.inr h

theorem mem_emplace (m : List (Addr × Nat)) (a : Addr) (k : Nat) (e : Addr × Nat)
    (h : e ∈ emplace m a k) : e = (a, k) ∨ e ∈ m := by
  unfold emplace at h
  cases hf : find m a with
  | some j =>
    rw [hf] at h
    exact Or.inr h
  | none =>
    rw [hf] at h
    exact List.mem_cons.1 h

theorem getD_replicate_nil (n j : Nat) : (List.replicate n ([] : List Addr)).getD j [] = [] := by
  rw [List.getD_eq_getElem?_getD]
  by_cases h : j < n
  · simp [List.getElem?_replicate, h]
  · simp [List.getElem?_replicate, h]

theorem mem_keys_of_mem {m : List (Addr × Nat)} {e : Addr × Nat} (h : e ∈ m) : e.1 ∈ keys m :=
  List.mem_map_of_mem Prod.fst h

theorem getLast_mem_bucket (p : MemoryPool) (k : Nat) (ptr : Addr)
    (hb : (p.bucket k).getLast? = some ptr) : ptr ∈ p.bucket k := by
  have := List.dropLast_append_getLast? ptr hb
  rw [← this]
  simp

theorem CapInv_new {σ : Type} (id : Nat) (e : σ) : CapInv (MemoryPool.new id) ⟨e, []⟩ := by
  constructor
  · intro k a ha
    simp only [MemoryPool.bucket, MemoryPool.new, getD_replicate_nil] at ha
    cases ha
  · intro x hx
    simp [MemoryPool.new] at hx

theorem CapInv_free {σ : Type} (p : MemoryPool) (w : World σ) (ptr : Addr)
    (hc : CapInv p w) : CapInv (free p w ptr).pool (free p w ptr).world := by
  rcases free_cases p w ptr with ⟨_, h⟩ | ⟨k, hf, h⟩
  · rw [h]; exact hc
  · rw [h]
    constructor
    · intro j a ha
      simp only [MemoryPool.bucket] at ha
      rcases mem_getD_set _ _ _ _ _ ha with ⟨hjk, hx⟩ | hx
      · subst hjk
        rcases List.mem_append.1 hx with h1 | h1
        · exact hc.1 j a h1
        · rw [List.mem_singleton] at h1
          subst h1
          exact hc.2 _ (find_some_mem _ _ _ hf)
      · exact hc.1 j a hx
    · intro e he
      exact hc.2 e ((mem_erase_iff _ _ _).1 he).1

theorem CapInv_allocate {σ : Type} (cb : Callbacks σ) (p : MemoryPool) (w : World σ)
    (size : Nat) (hp : Inv p) (hfresh : freshCall cb p w size = true) (hc : CapInv p w) :
    CapInv (allocate cb p w size).pool (allocate cb p w size).world := by
  have hn := List.nodup_append.1 hp.2
  rcases allocate_cases cb p w size with ⟨_, h⟩ | ⟨k, ptr, _, hk, hb, h⟩ |
    ⟨k, ptr, e1, _, hk, _, hf, h⟩ | ⟨k, ptr, e3, _, hk, _, hf, h⟩ | ⟨k, e3, _, hk, _, h⟩
  · rw [h]; exact hc
  · rw [h]
    constructor
    · intro j a ha
      simp only [MemoryPool.bucket] at ha
      rcases mem_getD_set _ _ _ _ _ ha with ⟨hjk, hx⟩ | hx
      · subst hjk
        exact hc.1 j a (List.mem_of_mem_dropLast hx)
      · exact hc.1 j a hx
    · intro e he
      rcases mem_emplace _ _ _ _ he with h1 | h1
      · rw [h1]
        exact hc.1 k ptr (getLast_mem_bucket p k ptr hb)
      · exact hc.2 e h1
  · rw [h]
    rw [hf, decide_eq_true_eq] at hfresh
    constructor
    · intro j a ha
      have hne : ¬ ptr = a := fun hpa =>
        hfresh (List.mem_append_left _ (hpa ▸ getD_subset_flatten _ _ _ ha))
      simp only [liveCap_snoc_some, if_neg hne]
      exact hc.1 j a ha
    · intro e he
      simp only [liveCap_snoc_some]
      rcases mem_emplace _ _ _ _ he with h1 | h1
      · rw [h1, if_pos rfl, shl1_eq k hk]
      · have hne : ¬ ptr = e.1 := fun hpa =>
          hfresh (List.mem_append_right _ (hpa ▸ mem_keys_of_mem h1))
        rw [if_neg hne]
        exact hc.2 e h1
  · rw [h]
    rw [hf, decide_eq_true_eq] at hfresh
    constructor
    · intro j a ha
      simp only [MemoryPool.bucket, getD_replicate_nil] at ha
      cases ha
    · intro e he
      simp only [liveCap_snoc_some]
      rcases mem_emplace _ _ _ _ he with h1 | h1
      · rw [h1, if_pos rfl, shl1_eq k hk]
      · have hne : ¬ ptr = e.1 := fun hpa => hfresh (hpa ▸ mem_keys_of_mem h1)
        have hnd : e.1 ∉ drainOrder p.reserved_ := fun hm =>
          hn.2.2 ((drainOrder_perm _).mem_iff.1 hm) (mem_keys_of_mem h1)
        rw [if_neg hne, liveCap_releases _ _ _ hnd, liveCap_snoc_none]
        exact hc.2 e h1
  · rw [h]
    constructor
    · intro j a ha
      simp only [MemoryPool.bucket, getD_replicate_nil] at ha
      cases ha
    · intro e he
      have hnd : e.1 ∉ drainOrder p.reserved_ := fun hm =>
        hn.2.2 ((drainOrder_perm _).mem_iff.1 hm) (mem_keys_of_mem he)
      simp only [liveCap_snoc_none]
      rw [liveCap_releases _ _ _ hnd, liveCap_snoc_none]
      exact hc.2 e he

theorem CapInv_run {σ : Type} (cb : Callbacks σ) (s : MemoryPool × World σ) (ops : List Op)
    (hp : Inv s.1) (hfresh : freshRun cb s ops = true) (hc : CapInv s.1 s.2) :
    CapInv (run cb s ops).1 (run cb s ops).2 := by
  induction ops generalizing s with
  | nil => exact hc
  | cons op rest ih =>
    cases op with
    | allocate size =>
      simp only [freshRun, Bool.and_eq_true] at hfresh
      exact ih (step cb s (Op.allocate size)) (Inv_allocate cb s.1 s.2 size hp hfresh.1) hfresh.2
        (CapInv_allocate cb s.1 s.2 size hp hfresh.1 hc)
    | free ptr =>
      simp only [freshRun] at hfresh
      exact ih (step cb s (Op.free ptr)) (Inv_free s.1 s.2 ptr hp) hfresh
        (CapInv_free s.1 s.2 ptr hc)

theorem calculate_shifts_cover (size k : Nat) (hs : calculate_shifts size = Except.ok k)
    (hk : k ≤ 63) : size ≤ 2 ^ k := by
  unfold calculate_shifts at hs
  split at hs
  · cases hs
  · cases hs
    exact shiftSearch_hit 64 0 size (by omega)

/-- Under the invariant and the callback assumption, the address returned by
`allocate` is recorded with the class of the request. -/
theorem allocate_ok_recorded {σ : Type} (cb : Callbacks σ) (p : MemoryPool) (w : World σ)
    (size : Nat) (h : Handle) (hp : Inv p) (hfresh : freshCall cb p w size = true)
    (hr : (allocate cb p w size).result = Except.ok h) :
    ∃ k, calculate_shifts size = Except.ok k ∧ k ≤ 63
      ∧ (h.ptr, k) ∈ (allocate cb p w size).pool.supplied_ := by
  rcases allocate_cases cb p w size with ⟨_, he⟩ | ⟨k, ptr, hs, hk, hb, he⟩ |
    ⟨k, ptr, e1, hs, hk, _, hf, he⟩ | ⟨k, ptr, e3, hs, hk, _, hf, he⟩ | ⟨k, e3, _, _, _, he⟩
  · rw [he] at hr; cases hr
  · rw [he] at hr ⊢
    cases hr
    have hnot : ptr ∉ keys p.supplied_ :=
      not_mem_keys_of_mem_flatten hp.2 (getD_subset_flatten _ _ _ (getLast_mem_bucket p k ptr hb))
    refine ⟨k, hs, hk, ?_⟩
    simp only [emplace_of_not_mem _ _ _ hnot]
    exact List.mem_cons_self _ _
  · rw [he] at hr ⊢
    cases hr
    rw [hf, decide_eq_true_eq] at hfresh
    have hnot : ptr ∉ keys p.supplied_ := fun hc => hfresh (List.mem_append_right _ hc)
    refine ⟨k, hs, hk, ?_⟩
    simp only [emplace_of_not_mem _ _ _ hnot]
    exact List.mem_cons_self _ _
  · rw [he] at hr ⊢
    cases hr
    rw [hf, decide_eq_true_eq] at hfresh
    refine ⟨k, hs, hk, ?_⟩
    simp only [emplace_of_not_mem _ _ _ hfresh]
    exact List.mem_cons_self _ _
  · rw [he] at hr; cases hr

/-! ## The claims -/

/-- C1 (pool invariant).  Start from any pool state that satisfies the invariant
(the freshly constructed pool does) and perform any sequence of `allocate` and
`free` operations during which the allocation callback never returns an
address the pool holds at that moment.  Then in the state reached: no key of
`supplied_` is an element of a free list, no address occurs twice across the
free lists, no key occurs twice in `supplied_`; and an address returned by one
more such `allocate` is a key of `supplied_` and occurs exactly once among all
addresses that are then outstanding or free. -/
theorem C1_pool_invariant {σ : Type} (cb : Callbacks σ) (p : MemoryPool) (w : World σ)
    (ops : List Op) (hp : Inv p) (hfresh : freshRun cb (p, w) ops = true) :
    (∀ a ∈ keys (run cb (p, w) ops).1.supplied_, a ∉ (run cb (p, w) ops).1.reserved_.flatten)
    ∧ (run cb (p, w) ops).1.reserved_.flatten.Nodup
    ∧ (keys (run cb (p, w) ops).1.supplied_).Nodup
    ∧ ∀ (size : Nat) (h : Handle),
        freshCall cb (run cb (p, w) ops).1 (run cb (p, w) ops).2 size = true →
        (allocate cb (run cb (p, w) ops).1 (run cb (p, w) ops).2 size).result = Except.ok h →
        h.ptr ∈ keys (allocate cb (run cb (p, w) ops).1 (run cb (p, w) ops).2 size).pool.supplied_
        ∧ (held (allocate cb (run cb (p, w) ops).1 (run cb (p, w) ops).2 size).pool).count h.ptr
            = 1 := by
  have hinv : Inv (run cb (p, w) ops).1 := Inv_run cb (p, w) ops hp hfresh
  have hn := List.nodup_append.1 hinv.2
  refine ⟨fun a ha hf => hn.2.2 hf ha, hn.1, hn.2.1, ?_⟩
  intro size h hf hr
  have hinv2 := Inv_allocate cb _ _ size hinv hf
  have hmem := allocate_ok_mem_keys cb _ _ size h hr
  exact ⟨hmem, List.count_eq_one_of_mem hinv2.2 (List.mem_append_right _ hmem)⟩

theorem C1_pool_invariant_witness :
    Inv (MemoryPool.new 0)
    ∧ freshRun scripted (MemoryPool.new 0, ⟨[some 100, none, some 200, some 300], []⟩)
        [Op.allocate 10, Op.allocate 100, Op.free 100, Op.free 7, Op.allocate 9,
          Op.free 200, Op.allocate 3] = true
    ∧ (run scripted (MemoryPool.new 0, ⟨[some 100, none, some 200, some 300], []⟩)
        [Op.allocate 10, Op.allocate 100, Op.free 100, Op.free 7, Op.allocate 9,
          Op.free 200, Op.allocate 3]).1.reserved_.flatten.Nodup :=
  ⟨by decide, by decide,
    (C1_pool_invariant scripted (MemoryPool.new 0) ⟨[some 100, none, some 200, some 300], []⟩
      [Op.allocate 10, Op.allocate 100, Op.free 100, Op.free 7, Op.allocate 9,
        Op.free 200, Op.allocate 3] (by decide) (by decide)).2.1⟩

/-- C2 (LIFO reuse).  In a pool of the right shape, release an address `A` that
is outstanding with recorded class `k` and then call `allocate` with any size of
class `k`: the release succeeds, the allocation returns `A`, the environment and
the callback log are the ones from before the two calls (neither callback is
invoked), every free list other than that of class `k` is as the release left it,
the free list of class `k` is back to what it was before the release, and `A` is
outstanding with class `k` again.  More generally (last conjunct), `allocate`
on a state whose free list of the requested class `j` is not empty returns the
back of that list, which is the block most recently appended by `free`, pops it,
leaves the other free lists alone and invokes no callback. -/
theorem C2_lifo_reuse {σ : Type} (cb : Callbacks σ) (p : MemoryPool) (w : World σ)
    (A : Addr) (k size : Nat) (hp : WF p) (hA : find p.supplied_ A = some k)
    (hs : calculate_shifts size = Except.ok k) :
    (free p w A).result = Except.ok ()
    ∧ (allocate cb (free p w A).pool (free p w A).world size).result = Except.ok ⟨A, p.id_⟩
    ∧ (allocate cb (free p w A).pool (free p w A).world size).world = w
    ∧ (∀ j, j ≠ k → (allocate cb (free p w A).pool (free p w A).world size).pool.bucket j
          = (free p w A).pool.bucket j)
    ∧ (allocate cb (free p w A).pool (free p w A).world size).pool.bucket k = p.bucket k
    ∧ find (allocate cb (free p w A).pool (free p w A).world size).pool.supplied_ A = some k
    ∧ ∀ (q : MemoryPool) (v : World σ) (n j : Nat) (a : Addr),
        calculate_shifts n = Except.ok j → j ≤ 63 → (q.bucket j).getLast? = some a →
        (allocate cb q v n).result = Except.ok ⟨a, q.id_⟩
        ∧ (allocate cb q v n).world = v
        ∧ (allocate cb q v n).pool.bucket j = (q.bucket j).dropLast
        ∧ ∀ i, i ≠ j → (allocate cb q v n).pool.bucket i = q.bucket i := by
  have hk : k < p.reserved_.length := shift_lt_length p A k hp hA
  have hk63 : k ≤ 63 := by have := hp.1; omega
  have hb : ((free p w A).pool.bucket k).getLast? = some A := by
    rw [free_ok p w A k hA]
    simp only [MemoryPool.bucket]
    rw [getD_set_self _ _ _ hk, List.getLast?_concat]
  have hal := allocate_reuse cb (free p w A).pool (free p w A).world size k A hs hk63 hb
  rw [hal]
  rw [free_ok p w A k hA]
  refine ⟨rfl, rfl, rfl, ?_, ?_, ?_, ?_⟩
  · intro j hj
    simp only [MemoryPool.bucket]
    rw [getD_set_ne _ _ _ _ hj]
  · simp only [MemoryPool.bucket]
    rw [getD_set_self _ _ _ (by simpa using hk), getD_set_self _ _ _ hk, List.dropLast_concat]
  · exact find_emplace_self _ _ _ (find_erase_self _ _)
  · intro q v n j a hn hj hq
    have hj2 : j < q.reserved_.length := by
      apply lt_length_of_getD_ne_nil q.reserved_ j
      intro hnil
      unfold MemoryPool.bucket at hq
      rw [hnil] at hq
      cases hq
    rw [allocate_reuse cb q v n j a hn hj hq]
    refine ⟨rfl, rfl, ?_, ?_⟩
    · simp only [MemoryPool.bucket]
      rw [getD_set_self _ _ _ hj2]
    · intro i hi
      simp only [MemoryPool.bucket]
      rw [getD_set_ne _ _ _ _ hi]

theorem C2_lifo_reuse_witness :
    WF ⟨3, (List.replicate 64 []).set 7 [40, 50], [(200, 5), (100, 7)]⟩
    ∧ find [(200, 5), (100, 7)] 100 = some 7
    ∧ calculate_shifts 100 = Except.ok 7
    ∧ (allocate scripted
        (free ⟨3, (List.replicate 64 []).set 7 [40, 50], [(200, 5), (100, 7)]⟩
          (⟨[some 900], []⟩ : World (List (Option Addr))) 100).pool
        (free ⟨3, (List.replicate 64 []).set 7 [40, 50], [(200, 5), (100, 7)]⟩
          (⟨[some 900], []⟩ : World (List (Option Addr))) 100).world 100).result
        = Except.ok ⟨100, 3⟩ :=
  ⟨by decide, by decide, rfl,
    (C2_lifo_reuse scripted ⟨3, (List.replicate 64 []).set 7 [40, 50], [(200, 5), (100, 7)]⟩
      ⟨[some 900], []⟩ 100 7 100 (by decide) (by decide) rfl).2.1⟩

/-- C3 (out-of-memory recovery, one retry).  Let the free list of the requested
class `k` be empty and let `r1` be the answer of the first call of the
allocation callback (capacity `2 ^ k`).  If it is an address, `allocate`
returns it after that single callback invocation and the free lists are
untouched.  If it is a failure, then with `r2` the answer of the callback to the
same capacity in the environment left by the releases: the log gains exactly
the failed call, then one release per block of the free lists (class by class,
each list from its back, which is a permutation of all blocks of all free
lists), then the second call, and nothing else (no third call); all 64 free
lists end empty; and `allocate` returns the address of the second call when
there is one and fails with `OutOfMemory` when there is none. -/
theorem C3_oom_retry_once {σ : Type} (cb : Callbacks σ) (p : MemoryPool) (w : World σ)
    (size k : Nat) (r1 : Option Addr) (e1 : σ) (hp : p.reserved_.length = 64)
    (hs : calculate_shifts size = Except.ok k) (hk : k ≤ 63) (hb : p.bucket k = [])
    (ha : cb.allocator_ (2 ^ k) w.env = (r1, e1)) :
    (∀ ptr, r1 = some ptr →
        (allocate cb p w size).result = Except.ok ⟨ptr, p.id_⟩
        ∧ (allocate cb p w size).world = ⟨e1, w.log ++ [Event.alloc (2 ^ k) (some ptr)]⟩
        ∧ (allocate cb p w size).pool.reserved_ = p.reserved_)
    ∧ (r1 = none → ∀ (r2 : Option Addr) (e3 : σ),
        cb.allocator_ (2 ^ k)
          (releaseAll cb (drainOrder p.reserved_) ⟨e1, w.log ++ [Event.alloc (2 ^ k) none]⟩).env
            = (r2, e3) →
        (allocate cb p w size).world =
          ⟨e3, w.log ++ [Event.alloc (2 ^ k) none] ++ (drainOrder p.reserved_).map Event.release
            ++ [Event.alloc (2 ^ k) r2]⟩
        ∧ (allocate cb p w size).pool.reserved_ = List.replicate 64 []
        ∧ (∀ ptr, r2 = some ptr → (allocate cb p w size).result = Except.ok ⟨ptr, p.id_⟩)
        ∧ (r2 = none → (allocate cb p w size).result = Except.error PoolError.OutOfMemory))
    ∧ List.Perm (drainOrder p.reserved_) p.reserved_.flatten := by
  have hc := shl1_eq k hk
  rw [← hc] at ha ⊢
  refine ⟨?_, ?_, drainOrder_perm _⟩
  · intro ptr hr
    subst hr
    rw [allocate_new cb p w size k ptr e1 hs hk hb ha]
    exact ⟨rfl, rfl, rfl⟩
  · intro hr r2 e3 ha2
    subst hr
    cases r2 with
    | some ptr =>
      rw [allocate_retry_ok cb p w size k ptr e1 e3 hs hk hb ha ha2, releaseAll_log, hp]
      refine ⟨rfl, rfl, ?_, ?_⟩
      · intro q hq
        cases hq
        rfl
      · intro hq
        cases hq
    | none =>
      rw [allocate_retry_fail cb p w size k e1 e3 hs hk hb ha ha2, releaseAll_log, hp]
      refine ⟨rfl, rfl, ?_, ?_⟩
      · intro q hq
        cases hq
      · intro _
        rfl

theorem C3_oom_retry_once_witness :
    (((List.replicate 64 ([] : List Addr)).set 3 [11, 12]).set 9 [13]).length = 64
    ∧ calculate_shifts 10 = Except.ok 4
    ∧ (4 : Nat) ≤ 63
    ∧ (MemoryPool.mk 0 (((List.replicate 64 []).set 3 [11, 12]).set 9 [13]) [(50, 2)]).bucket 4 = []
    ∧ scripted.allocator_ (2 ^ 4) [none, some 12] = (none, [some 12])
    ∧ (allocate scripted ⟨0, ((List.replicate 64 []).set 3 [11, 12]).set 9 [13], [(50, 2)]⟩
        ⟨[none, some 12], []⟩ 10).world =
        ⟨[], [Event.alloc 16 none, Event.release 12, Event.release 11, Event.release 13,
          Event.alloc 16 (some 12)]⟩ :=
  ⟨by decide, rfl, by decide, by decide, rfl,
    ((C3_oom_retry_once scripted
      ⟨0, ((List.replicate 64 []).set 3 [11, 12]).set 9 [13], [(50, 2)]⟩ ⟨[none, some 12], []⟩
      10 4 none [some 12] (by decide) rfl (by decide) (by decide) rfl).2.1 rfl (some 12) [] rfl).1⟩

/-- C4 (no partial allocation on `OutOfMemory`).  When `allocate` on a state
satisfying the invariant fails with `OutOfMemory`, the allocation callback was
tried twice for the same capacity and failed twice, the outstanding map is the
one from before the call, the result is no handle, all 64 free lists are empty,
no outstanding address is in a free list, and the invariant holds. -/
theorem C4_oom_keeps_state {σ : Type} (cb : Callbacks σ) (p : MemoryPool) (w : World σ)
    (size : Nat) (hp : Inv p)
    (hr : (allocate cb p w size).result = Except.error PoolError.OutOfMemory) :
    (allocate cb p w size).pool.supplied_ = p.supplied_
    ∧ (∀ h : Handle, (allocate cb p w size).result ≠ Except.ok h)
    ∧ (allocate cb p w size).pool.reserved_ = List.replicate 64 []
    ∧ (∀ a ∈ keys (allocate cb p w size).pool.supplied_,
        a ∉ (allocate cb p w size).pool.reserved_.flatten)
    ∧ Inv (allocate cb p w size).pool
    ∧ ∃ k, calculate_shifts size = Except.ok k ∧ k ≤ 63 ∧
        (allocate cb p w size).world.log =
          w.log ++ [Event.alloc (2 ^ k) none] ++ (drainOrder p.reserved_).map Event.release
            ++ [Event.alloc (2 ^ k) none] := by
  rcases allocate_cases cb p w size with ⟨_, he⟩ | ⟨k, ptr, _, _, _, he⟩ |
    ⟨k, ptr, e1, _, _, _, _, he⟩ | ⟨k, ptr, e3, _, _, _, _, he⟩ | ⟨k, e3, hs, hk, _, he⟩
  · rw [he] at hr; cases hr
  · rw [he] at hr; cases hr
  · rw [he] at hr; cases hr
  · rw [he] at hr; cases hr
  · have hinv : Inv (allocate cb p w size).pool := by
      rw [he]
      refine ⟨⟨by simp [hp.1.1], hp.1.2⟩, ?_⟩
      rw [held_replicate]
      exact keys_nodup_of_held hp.2
    refine ⟨?_, ?_, ?_, ?_, hinv, k, hs, hk, ?_⟩
    · rw [he]
    · intro h hh
      rw [he] at hh
      cases hh
    · rw [he]
      simp only
      rw [hp.1.1]
    · intro a ha hf
      exact (List.nodup_append.1 hinv.2).2.2 hf ha
    · rw [he, shl1_eq k hk]

theorem C4_oom_keeps_state_witness :
    Inv ⟨0, ((List.replicate 64 []).set 3 [11, 12]).set 9 [13], [(50, 2)]⟩
    ∧ (allocate scripted ⟨0, ((List.replicate 64 []).set 3 [11, 12]).set 9 [13], [(50, 2)]⟩
        ⟨[none, none, some 12], []⟩ 10).result = Except.error PoolError.OutOfMemory
    ∧ (allocate scripted ⟨0, ((List.replicate 64 []).set 3 [11, 12]).set 9 [13], [(50, 2)]⟩
        ⟨[none, none, some 12], []⟩ 10).pool.supplied_ = [(50, 2)] :=
  ⟨by decide, rfl,
    (C4_oom_keeps_state scripted
      ⟨0, ((List.replicate 64 []).set 3 [11, 12]).set 9 [13], [(50, 2)]⟩
      ⟨[none, none, some 12], []⟩ 10 (by decide) rfl).1⟩

/-- C5 (unknown handle).  A call `free(addr)` fails with `UnknownHandle` exactly
when `addr` is not a key of `supplied_`, and it can fail in no other way; when it
fails the pool state (free lists and outstanding map) and the environment with
its callback log are unchanged; and a second `free(addr)` directly after a first
one always fails with `UnknownHandle`. -/
theorem C5_unknown_handle {σ : Type} (p : MemoryPool) (w : World σ) (addr : Addr) :
    ((free p w addr).result = Except.error PoolError.UnknownHandle ↔ addr ∉ keys p.supplied_)
    ∧ (∀ e, (free p w addr).result = Except.error e → e = PoolError.UnknownHandle)
    ∧ (addr ∉ keys p.supplied_ → (free p w addr).pool = p ∧ (free p w addr).world = w)
    ∧ (free (free p w addr).pool (free p w addr).world addr).result
        = Except.error PoolError.UnknownHandle := by
  rcases free_cases p w addr with ⟨hf, he⟩ | ⟨k, hf, he⟩
  · have hnot : addr ∉ keys p.supplied_ := (find_eq_none_iff _ _).1 hf
    rw [he]
    refine ⟨⟨fun _ => hnot, fun _ => rfl⟩, ?_, fun _ => ⟨rfl, rfl⟩, ?_⟩
    · intro e h
      cases h
      rfl
    · rw [free_unknown p w addr hf]
  · have hmem : ¬ addr ∉ keys p.supplied_ := by
      intro hc
      rw [(find_eq_none_iff _ _).2 hc] at hf
      cases hf
    rw [he]
    refine ⟨⟨fun h => (by cases h), fun h => absurd h hmem⟩, ?_, fun h => absurd h hmem, ?_⟩
    · intro e h
      cases h
    · rw [free_unknown _ w addr (find_erase_self _ _)]

theorem C5_unknown_handle_witness :
    (free ⟨0, List.replicate 64 [], [(50, 2)]⟩ (⟨(), []⟩ : World Unit) 50).result = Except.ok ()
    ∧ (free (free ⟨0, List.replicate 64 [], [(50, 2)]⟩ (⟨(), []⟩ : World Unit) 50).pool
        (free ⟨0, List.replicate 64 [], [(50, 2)]⟩ (⟨(), []⟩ : World Unit) 50).world 50).result
        = Except.error PoolError.UnknownHandle :=
  ⟨rfl, (C5_unknown_handle ⟨0, List.replicate 64 [], [(50, 2)]⟩ ⟨(), []⟩ 50).2.2.2⟩

/-- C6 (size class).  For a size `s` with `0 < s ≤ 2 ^ 63` the class `k` computed
for `allocate` satisfies `s ≤ 2 ^ k`, is the least such exponent, is at most 63, is
`0` for `s = 1`, satisfies `2 ^ (k - 1) < s` when `k > 0`, and is the only exponent
`j` with `s ≤ 2 ^ j < 2 * s`.  When the free list of class `k` is empty, the
callback log grows by a call of the allocation callback with capacity `2 ^ k`
and every later call of it within this `allocate` has the same capacity.
Whenever `allocate` returns an address that was not already a key of the
outstanding map, that address is recorded there with class `k`. -/
theorem C6_size_class {σ : Type} (cb : Callbacks σ) (p : MemoryPool) (w : World σ) (s : Nat)
    (hs0 : 0 < s) (hs : s ≤ 2 ^ 63) :
    ∃ k, calculate_shifts s = Except.ok k
      ∧ k ≤ 63 ∧ s ≤ 2 ^ k ∧ (∀ j, s ≤ 2 ^ j → k ≤ j)
      ∧ (s = 1 → k = 0) ∧ (0 < k → 2 ^ (k - 1) < s)
      ∧ (∀ j, s ≤ 2 ^ j → 2 ^ j < 2 * s → j = k)
      ∧ (p.bucket k = [] → ∃ r rest,
          (allocate cb p w s).world.log = w.log ++ Event.alloc (2 ^ k) r :: rest
          ∧ ∀ c ∈ allocCalls rest, c.1 = 2 ^ k)
      ∧ ∀ h : Handle, (allocate cb p w s).result = Except.ok h →
          h.ptr ∉ keys p.supplied_ →
          find (allocate cb p w s).pool.supplied_ h.ptr = some k := by
  have hk : shiftSearch 64 0 s ≤ 63 := shiftSearch_le_63 s hs
  have hcov : s ≤ 2 ^ shiftSearch 64 0 s := shiftSearch_hit 64 0 s (by omega)
  have hleast : ∀ j, s ≤ 2 ^ j → shiftSearch 64 0 s ≤ j := by
    intro j hj
    by_contra hc
    have := shiftSearch_least 64 0 s j (Nat.zero_le _) (Nat.lt_of_not_le hc)
    omega
  have hpred : 0 < shiftSearch 64 0 s → 2 ^ (shiftSearch 64 0 s - 1) < s := by
    intro hpos
    exact shiftSearch_least 64 0 s _ (Nat.zero_le _) (by omega)
  have hcs := calculate_shifts_pos s hs0
  refine ⟨shiftSearch 64 0 s, hcs, hk, hcov, hleast, ?_, hpred, ?_, ?_, ?_⟩
  · intro h1
    have := hleast 0 (by rw [h1]; exact Nat.le_refl _)
    omega
  · intro j hj hj2
    apply Nat.le_antisymm _ (hleast j hj)
    by_contra hc
    have hlt : shiftSearch 64 0 s < j := Nat.lt_of_not_le hc
    have h1 : 2 ^ (shiftSearch 64 0 s + 1) ≤ 2 ^ j := Nat.pow_le_pow_right (by decide) hlt
    rw [Nat.pow_succ] at h1
    have hpos : 0 < shiftSearch 64 0 s := by
      by_contra h0
      have hz : shiftSearch 64 0 s = 0 := by omega
      rw [hz] at h1 hcov
      simp at h1 hcov
      omega
    have := hpred hpos
    have := two_pow_pred_lt _ _ hpos this
    omega
  · intro hb
    rcases allocate_cases cb p w s with ⟨hbad, _⟩ | ⟨k, ptr, hk1, _, hb1, _⟩ |
      ⟨k, ptr, e1, hk1, hk2, _, _, he⟩ | ⟨k, ptr, e3, hk1, hk2, _, _, he⟩ |
      ⟨k, e3, hk1, hk2, _, he⟩
    · rcases hbad with h0 | ⟨k, hk1, hk2⟩
      · omega
      · rw [hcs] at hk1
        cases hk1
        omega
    · rw [hcs] at hk1
      cases hk1
      rw [hb] at hb1
      cases hb1
    · rw [hcs] at hk1
      cases hk1
      rw [he, shl1_eq _ hk]
      exact ⟨some ptr, [], rfl, by simp [allocCalls]⟩
    · rw [hcs] at hk1
      cases hk1
      rw [he, shl1_eq _ hk]
      refine ⟨none, (drainOrder p.reserved_).map Event.release
        ++ [Event.alloc (2 ^ shiftSearch 64 0 s) (some ptr)], by simp, ?_⟩
      rw [allocCalls_append, allocCalls_map_release]
      simp [allocCalls]
    · rw [hcs] at hk1
      cases hk1
      rw [he, shl1_eq _ hk]
      refine ⟨none, (drainOrder p.reserved_).map Event.release
        ++ [Event.alloc (2 ^ shiftSearch 64 0 s) none], by simp, ?_⟩
      rw [allocCalls_append, allocCalls_map_release]
      simp [allocCalls]
  · intro h hr hnot
    have hnone : find p.supplied_ h.ptr = none := (find_eq_none_iff _ _).2 hnot
    rcases allocate_cases cb p w s with ⟨_, he⟩ | ⟨k, ptr, hk1, _, _, he⟩ |
      ⟨k, ptr, e1, hk1, _, _, _, he⟩ | ⟨k, ptr, e3, hk1, _, _, _, he⟩ |
      ⟨k, e3, hk1, _, _, he⟩
    · rw [he] at hr; cases hr
    · rw [hcs] at hk1
      cases hk1
      rw [he] at hr ⊢
      cases hr
      exact find_emplace_self _ _ _ hnone
    · rw [hcs] at hk1
      cases hk1
      rw [he] at hr ⊢
      cases hr
      exact find_emplace_self _ _ _ hnone
    · rw [hcs] at hk1
      cases hk1
      rw [he] at hr ⊢
      cases hr
      exact find_emplace_self _ _ _ hnone
    · rw [he] at hr; cases hr

theorem C6_size_class_witness :
    0 < 100 ∧ 100 ≤ 2 ^ 63
    ∧ ∃ k, calculate_shifts 100 = Except.ok k
      ∧ k ≤ 63 ∧ 100 ≤ 2 ^ k ∧ (∀ j, 100 ≤ 2 ^ j → k ≤ j)
      ∧ (100 = 1 → k = 0) ∧ (0 < k → 2 ^ (k - 1) < 100)
      ∧ (∀ j, 100 ≤ 2 ^ j → 2 ^ j < 2 * 100 → j = k)
      ∧ ((MemoryPool.new 0).bucket k = [] → ∃ r rest,
          (allocate scripted (MemoryPool.new 0) ⟨[some 5], []⟩ 100).world.log
            = [] ++ Event.alloc (2 ^ k) r :: rest
          ∧ ∀ c ∈ allocCalls rest, c.1 = 2 ^ k)
      ∧ ∀ h : Handle,
          (allocate scripted (MemoryPool.new 0) ⟨[some 5], []⟩ 100).result = Except.ok h →
          h.ptr ∉ keys (MemoryPool.new 0).supplied_ →
          find (allocate scripted (MemoryPool.new 0) ⟨[some 5], []⟩ 100).pool.supplied_ h.ptr
            = some k :=
  ⟨by decide, by decide,
    C6_size_class scripted (MemoryPool.new 0) ⟨[some 5], []⟩ 100 (by decide) (by decide)⟩

/-- C7 (size zero).  The call `allocate(0)` fails with `InvalidSize`; the pool
state (free lists and outstanding map) and the environment with its callback
log are the ones from before the call, so no callback is invoked. -/
theorem C7_zero_size {σ : Type} (cb : Callbacks σ) (p : MemoryPool) (w : World σ) :
    (allocate cb p w 0).result = Except.error PoolError.InvalidSize
    ∧ (allocate cb p w 0).pool = p
    ∧ (allocate cb p w 0).world = w := by
  rw [allocate_error cb p w 0 PoolError.InvalidSize calculate_shifts_zero]
  exact ⟨rfl, rfl, rfl⟩

/-- C8 (size too large).  For every size `s > 2 ^ 63` the computed class exceeds
`MAX_SHIFTS = 63` and `allocate(s)` fails with `InvalidSize`, leaving the pool
state and the environment with its callback log as they were (no callback is
invoked, no block is taken); and for every `s` with `0 < s ≤ 2 ^ 63` the call does
not fail with `InvalidSize`. -/
theorem C8_too_large {σ : Type} (cb : Callbacks σ) (p : MemoryPool) (w : World σ) (s : Nat) :
    (2 ^ 63 < s →
      (∃ k, calculate_shifts s = Except.ok k ∧ MAX_SHIFTS < k)
      ∧ (allocate cb p w s).result = Except.error PoolError.InvalidSize
      ∧ (allocate cb p w s).pool = p
      ∧ (allocate cb p w s).world = w)
    ∧ (0 < s → s ≤ 2 ^ 63 →
      (allocate cb p w s).result ≠ Except.error PoolError.InvalidSize) := by
  constructor
  · intro hs
    have hcs := calculate_shifts_pos s (by omega)
    have hk := shiftSearch_gt_63 s hs
    rw [allocate_too_large cb p w s _ hcs hk]
    exact ⟨⟨_, hcs, hk⟩, rfl, rfl, rfl⟩
  · intro hs0 hs hr
    have hcs := calculate_shifts_pos s hs0
    have hk := shiftSearch_le_63 s hs
    rcases allocate_cases cb p w s with ⟨hbad, _⟩ | ⟨k, ptr, _, _, _, he⟩ |
      ⟨k, ptr, e1, _, _, _, _, he⟩ | ⟨k, ptr, e3, _, _, _, _, he⟩ | ⟨k, e3, _, _, _, he⟩
    · rcases hbad with h0 | ⟨k, hk1, hk2⟩
      · omega
      · rw [hcs] at hk1
        cases hk1
        omega
    · rw [he] at hr; cases hr
    · rw [he] at hr; cases hr
    · rw [he] at hr; cases hr
    · rw [he] at hr; cases hr

theorem C8_too_large_witness :
    2 ^ 63 < 2 ^ 63 + 1
    ∧ (allocate scripted (MemoryPool.new 0) ⟨[some 5], []⟩ (2 ^ 63 + 1)).result
        = Except.error PoolError.InvalidSize
    ∧ 0 < 2 ^ 63 ∧ 2 ^ 63 ≤ 2 ^ 63
    ∧ (allocate scripted (MemoryPool.new 0) ⟨[some 5], []⟩ (2 ^ 63)).result
        ≠ Except.error PoolError.InvalidSize :=
  ⟨by decide,
    ((C8_too_large scripted (MemoryPool.new 0) ⟨[some 5], []⟩ (2 ^ 63 + 1)).1 (by decide)).2.1,
    by decide, by decide,
    (C8_too_large scripted (MemoryPool.new 0) ⟨[some 5], []⟩ (2 ^ 63)).2 (by decide) (by decide)⟩

/-- C9 (deferred release).  For an address `addr` that is outstanding with
recorded class `k` in a pool of the right shape, `free(addr)` succeeds, removes
`addr` from the outstanding map, appends it at the back of the free list of class
`k` (the class found in the map; the size is not consulted), leaves every other
free list and the recorded class of every other address as they were, and leaves
the environment and the callback log untouched (the release callback is not
invoked). -/
theorem C9_release_deferred {σ : Type} (p : MemoryPool) (w : World σ) (addr : Addr) (k : Nat)
    (hp : WF p) (hf : find p.supplied_ addr = some k) :
    (free p w addr).result = Except.ok ()
    ∧ find (free p w addr).pool.supplied_ addr = none
    ∧ addr ∉ keys (free p w addr).pool.supplied_
    ∧ (free p w addr).pool.bucket k = p.bucket k ++ [addr]
    ∧ (∀ j, j ≠ k → (free p w addr).pool.bucket j = p.bucket j)
    ∧ (free p w addr).pool.reserved_.length = p.reserved_.length
    ∧ (∀ b, b ≠ addr → find (free p w addr).pool.supplied_ b = find p.supplied_ b)
    ∧ (free p w addr).world = w := by
  have hk : k < p.reserved_.length := shift_lt_length p addr k hp hf
  rw [free_ok p w addr k hf]
  refine ⟨rfl, find_erase_self _ _, (find_eq_none_iff _ _).1 (find_erase_self _ _), ?_, ?_, ?_,
    ?_, rfl⟩
  · simp only [MemoryPool.bucket]
    rw [getD_set_self _ _ _ hk]
  · intro j hj
    simp only [MemoryPool.bucket]
    rw [getD_set_ne _ _ _ _ hj]
  · simp
  · intro b hb
    exact find_erase_ne _ _ _ hb

theorem C9_release_deferred_witness :
    WF ⟨3, (List.replicate 64 []).set 7 [40, 50], [(200, 5), (100, 7)]⟩
    ∧ find [(200, 5), (100, 7)] 100 = some 7
    ∧ (free ⟨3, (List.replicate 64 []).set 7 [40, 50], [(200, 5), (100, 7)]⟩
        (⟨(), []⟩ : World Unit) 100).pool.bucket 7
        = (MemoryPool.mk 3 ((List.replicate 64 []).set 7 [40, 50]) [(200, 5), (100, 7)]).bucket 7
          ++ [100] :=
  ⟨by decide, by decide,
    (C9_release_deferred ⟨3, (List.replicate 64 []).set 7 [40, 50], [(200, 5), (100, 7)]⟩
      ⟨(), []⟩ 100 7 (by decide) (by decide)).2.2.2.1⟩

/-- C10 (teardown).  Let a pool of the right shape whose outstanding map has no
repeated key (the freshly constructed pool is one) go through any sequence of
operations, and run the destructor on the state reached.  The destructor
completes; the outstanding map and all 64 free lists end empty; there is a list
`rel` of addresses, a permutation of the addresses in the free lists and the
outstanding map at the start of the teardown, such that the callback log grows
by one release call per element of `rel` and by nothing else, and the environment
left is the one obtained by applying the release callback `deleter_` of the pool
to the elements of `rel`, one after the other, starting from the environment at
the start of the teardown: the release callback is invoked exactly once on each
held block and on nothing else; when no address was held twice, `rel` has no
repetition.  Over a whole lifetime under the assumption of C1 (start and
sequence as in C1, every address obtained so far either released or held at the
start, as for a fresh pool with an empty log) the addresses returned by the
allocation callback are, with multiplicity, the addresses passed to the release
callback.  In the scenario `allocate(10)`, `allocate(10)`, release both,
`allocate(10)`, destroy: the allocation callback is called 2 times, the release
callback 0 times before teardown and exactly 2 times by it; with a recording
release stub, the record is empty before teardown and holds the two blocks after
it. -/
theorem C10_teardown {σ : Type} (cb : Callbacks σ) (p : MemoryPool) (w : World σ)
    (ops : List Op) (hp : WF p) (hk : (keys p.supplied_).Nodup) :
    (destroy cb (run cb (p, w) ops).1 (run cb (p, w) ops).2).result = Except.ok ()
    ∧ (destroy cb (run cb (p, w) ops).1 (run cb (p, w) ops).2).pool.supplied_ = []
    ∧ (destroy cb (run cb (p, w) ops).1 (run cb (p, w) ops).2).pool.reserved_
        = List.replicate 64 []
    ∧ (∃ rel : List Addr,
        (destroy cb (run cb (p, w) ops).1 (run cb (p, w) ops).2).world.log
          = (run cb (p, w) ops).2.log ++ rel.map Event.release
        ∧ (destroy cb (run cb (p, w) ops).1 (run cb (p, w) ops).2).world.env
          = rel.foldl (fun e a => cb.deleter_ a e) (run cb (p, w) ops).2.env
        ∧ List.Perm rel
            ((run cb (p, w) ops).1.reserved_.flatten ++ keys (run cb (p, w) ops).1.supplied_)
        ∧ (((run cb (p, w) ops).1.reserved_.flatten
              ++ keys (run cb (p, w) ops).1.supplied_).Nodup → rel.Nodup))
    ∧ (Inv p → freshRun cb (p, w) ops = true →
        List.Perm (allocatedAddrs w.log) (releasedAddrs w.log ++ held p) →
        List.Perm
          (allocatedAddrs (destroy cb (run cb (p, w) ops).1 (run cb (p, w) ops).2).world.log)
          (releasedAddrs (destroy cb (run cb (p, w) ops).1 (run cb (p, w) ops).2).world.log))
    ∧ ((allocCalls (run scripted (MemoryPool.new 0, ⟨[some 100, some 200, some 300], []⟩)
          [Op.allocate 10, Op.allocate 10, Op.free 100, Op.free 200, Op.allocate 10]).2.log).length
          = 2
      ∧ releasedAddrs (run scripted (MemoryPool.new 0, ⟨[some 100, some 200, some 300], []⟩)
          [Op.allocate 10, Op.allocate 10, Op.free 100, Op.free 200, Op.allocate 10]).2.log = []
      ∧ (destroy scripted
          (run scripted (MemoryPool.new 0, ⟨[some 100, some 200, some 300], []⟩)
            [Op.allocate 10, Op.allocate 10, Op.free 100, Op.free 200, Op.allocate 10]).1
          (run scripted (MemoryPool.new 0, ⟨[some 100, some 200, some 300], []⟩)
            [Op.allocate 10, Op.allocate 10, Op.free 100, Op.free 200, Op.allocate 10]).2).world.log
          = [Event.alloc 16 (some 100), Event.alloc 16 (some 200), Event.release 200,
              Event.release 100])
    ∧ ((run recording (MemoryPool.new 0, ⟨([some 100, some 200, some 300], []), []⟩)
          [Op.allocate 10, Op.allocate 10, Op.free 100, Op.free 200, Op.allocate 10]).2.env
          = ([some 300], [])
      ∧ (destroy recording
          (run recording (MemoryPool.new 0, ⟨([some 100, some 200, some 300], []), []⟩)
            [Op.allocate 10, Op.allocate 10, Op.free 100, Op.free 200, Op.allocate 10]).1
          (run recording (MemoryPool.new 0, ⟨([some 100, some 200, some 300], []), []⟩)
            [Op.allocate 10, Op.allocate 10, Op.free 100, Op.free 200, Op.allocate 10]).2).world.env
          = ([some 300], [200, 100])) := by
  have hs := shape_run cb (p, w) ops hp hk
  have hd := destroy_spec cb (run cb (p, w) ops).1 (run cb (p, w) ops).2 hs.1 hs.2
  have he := destroy_env cb (run cb (p, w) ops).1 (run cb (p, w) ops).2 hs.1 hs.2
  refine ⟨hd.1, ?_, ?_, ?_, ?_, ?_, ?_⟩
  · rw [hd.2.1]
  · rw [hd.2.1]
  · exact ⟨_, hd.2.2.1, he, hd.2.2.2, fun hn => hd.2.2.2.nodup_iff.2 hn⟩
  · intro hinv hfresh hbal0
    have hbal := balance_run cb (p, w) ops hinv hfresh hbal0
    rw [hd.2.2.1, allocatedAddrs_append, releasedAddrs_append, allocatedAddrs_map_release,
      releasedAddrs_map_release, List.append_nil]
    exact hbal.trans (List.Perm.append_left _ hd.2.2.2.symm)
  · decide
  · decide

theorem C10_teardown_witness :
    WF (MemoryPool.new 0)
    ∧ (keys (MemoryPool.new 0).supplied_).Nodup
    ∧ (destroy recording
        (run recording (MemoryPool.new 0, ⟨([some 100, none, some 200, some 300], []), []⟩)
          [Op.allocate 10, Op.allocate 100, Op.free 100, Op.allocate (2 ^ 40)]).1
        (run recording (MemoryPool.new 0, ⟨([some 100, none, some 200, some 300], []), []⟩)
          [Op.allocate 10, Op.allocate 100, Op.free 100, Op.allocate (2 ^ 40)]).2).pool.supplied_
        = []
    ∧ (∃ rel : List Addr,
        (destroy recording
          (run recording (MemoryPool.new 0, ⟨([some 100, none, some 200, some 300], []), []⟩)
            [Op.allocate 10, Op.allocate 100, Op.free 100, Op.allocate (2 ^ 40)]).1
          (run recording (MemoryPool.new 0, ⟨([some 100, none, some 200, some 300], []), []⟩)
            [Op.allocate 10, Op.allocate 100, Op.free 100, Op.allocate (2 ^ 40)]).2).world.log
          = (run recording (MemoryPool.new 0, ⟨([some 100, none, some 200, some 300], []), []⟩)
            [Op.allocate 10, Op.allocate 100, Op.free 100, Op.allocate (2 ^ 40)]).2.log
            ++ rel.map Event.release
        ∧ (destroy recording
          (run recording (MemoryPool.new 0, ⟨([some 100, none, some 200, some 300], []), []⟩)
            [Op.allocate 10, Op.allocate 100, Op.free 100, Op.allocate (2 ^ 40)]).1
          (run recording (MemoryPool.new 0, ⟨([some 100, none, some 200, some 300], []), []⟩)
            [Op.allocate 10, Op.allocate 100, Op.free 100, Op.allocate (2 ^ 40)]).2).world.env
          = rel.foldl (fun e a => recording.deleter_ a e)
              (run recording (MemoryPool.new 0, ⟨([some 100, none, some 200, some 300], []), []⟩)
                [Op.allocate 10, Op.allocate 100, Op.free 100, Op.allocate (2 ^ 40)]).2.env
        ∧ List.Perm rel
            ((run recording (MemoryPool.new 0, ⟨([some 100, none, some 200, some 300], []), []⟩)
                [Op.allocate 10, Op.allocate 100, Op.free 100,
                  Op.allocate (2 ^ 40)]).1.reserved_.flatten
              ++ keys (run recording
                (MemoryPool.new 0, ⟨([some 100, none, some 200, some 300], []), []⟩)
                [Op.allocate 10, Op.allocate 100, Op.free 100,
                  Op.allocate (2 ^ 40)]).1.supplied_)
        ∧ (((run recording (MemoryPool.new 0, ⟨([some 100, none, some 200, some 300], []), []⟩)
                [Op.allocate 10, Op.allocate 100, Op.free 100,
                  Op.allocate (2 ^ 40)]).1.reserved_.flatten
              ++ keys (run recording
                (MemoryPool.new 0, ⟨([some 100, none, some 200, some 300], []), []⟩)
                [Op.allocate 10, Op.allocate 100, Op.free 100,
                  Op.allocate (2 ^ 40)]).1.supplied_).Nodup → rel.Nodup))
    ∧ (destroy recording
        (run recording (MemoryPool.new 0, ⟨([some 100, none, some 200, some 300], []), []⟩)
          [Op.allocate 10, Op.allocate 100, Op.free 100, Op.allocate (2 ^ 40)]).1
        (run recording (MemoryPool.new 0, ⟨([some 100, none, some 200, some 300], []), []⟩)
          [Op.allocate 10, Op.allocate 100, Op.free 100, Op.allocate (2 ^ 40)]).2).world.env
        = ([], [100, 200, 300])
    ∧ List.Perm
        (allocatedAddrs (destroy recording
          (run recording (MemoryPool.new 0, ⟨([some 100, none, some 200, some 300], []), []⟩)
            [Op.allocate 10, Op.allocate 100, Op.free 100, Op.allocate (2 ^ 40)]).1
          (run recording (MemoryPool.new 0, ⟨([some 100, none, some 200, some 300], []), []⟩)
            [Op.allocate 10, Op.allocate 100, Op.free 100, Op.allocate (2 ^ 40)]).2).world.log)
        (releasedAddrs (destroy recording
          (run recording (MemoryPool.new 0, ⟨([some 100, none, some 200, some 300], []), []⟩)
            [Op.allocate 10, Op.allocate 100, Op.free 100, Op.allocate (2 ^ 40)]).1
          (run recording (MemoryPool.new 0, ⟨([some 100, none, some 200, some 300], []), []⟩)
            [Op.allocate 10, Op.allocate 100, Op.free 100, Op.allocate (2 ^ 40)]).2).world.log) :=
  ⟨by decide, by decide,
    (C10_teardown recording (MemoryPool.new 0)
      ⟨([some 100, none, some 200, some 300], []), []⟩
      [Op.allocate 10, Op.allocate 100, Op.free 100, Op.allocate (2 ^ 40)]
      (by decide) (by decide)).2.1,
    (C10_teardown recording (MemoryPool.new 0)
      ⟨([some 100, none, some 200, some 300], []), []⟩
      [Op.allocate 10, Op.allocate 100, Op.free 100, Op.allocate (2 ^ 40)]
      (by decide) (by decide)).2.2.2.1,
    by decide,
    (C10_teardown recording (MemoryPool.new 0)
      ⟨([some 100, none, some 200, some 300], []), []⟩
      [Op.allocate 10, Op.allocate 100, Op.free 100, Op.allocate (2 ^ 40)]
      (by decide) (by decide)).2.2.2.2.1 (by decide) (by decide) (List.Perm.refl _)⟩

/-- C11 (a handle outliving its pool).  A handle returned by `allocate` carries
the id of the pool (`Deleter(id())`) and nothing else of it.  Let the pool
registered under an id `i` that has been assigned be destroyed, and let anything
happen afterwards (pools constructed, allocations, releases, destructions):
the registry has no pool under `i`, and the release action of a handle bound to
`i` leaves the registry, every pool and the environment with its callback log
exactly as they are, so no release callback is invoked and no other pool
changes.  In the scenario `allocate(1 << 40)`, destruction of the pool while the
handle is held, release of the handle: the block is released once, by the
teardown. -/
theorem C11_handle_outlives_pool {σ : Type} (cbs : Nat → Callbacks σ) (r : Registry σ)
    (i : Nat) (ops : List SysOp) (h : Handle) (hi : i < r.next_id_) (hh : h.pool_id = i) :
    (∀ (cb : Callbacks σ) (p : MemoryPool) (w : World σ) (size : Nat) (g : Handle),
        (allocate cb p w size).result = Except.ok g → g.pool_id = p.id_)
    ∧ (∀ (size : Nat) (g : Handle), (r.allocate cbs i size).1 = some g → g.pool_id = i)
    ∧ get_object (sysRun cbs (r.destruct cbs i) ops).objects_ h.pool_id = none
    ∧ Deleter h.pool_id h.ptr (sysRun cbs (r.destruct cbs i) ops)
        = sysRun cbs (r.destruct cbs i) ops
    ∧ (sysRun (fun _ => scripted) ⟨0, [], ⟨[some 77], []⟩⟩
          [SysOp.construct, SysOp.allocate 0 (2 ^ 40), SysOp.destruct 0,
            SysOp.release ⟨77, 0⟩]).world.log
        = [Event.alloc (2 ^ 40) (some 77), Event.release 77] := by
  have hd := destruct_dead cbs r i
  have hdead := dead_run cbs (r.destruct cbs i) ops i (by rw [hd.1]; exact hi) hd.2
  have hnone : get_object (sysRun cbs (r.destruct cbs i) ops).objects_ h.pool_id = none := by
    rw [hh]
    exact (get_object_eq_none_iff _ _).2 hdead.2
  refine ⟨fun cb p w size g hg => allocate_handle_id cb p w size g hg, ?_, hnone, ?_, ?_⟩
  · intro size g hg
    unfold Registry.allocate at hg
    cases hp : get_object r.objects_ i with
    | none =>
      rw [hp] at hg
      cases hg
    | some p =>
      rw [hp] at hg
      simp only at hg
      cases hres : (allocate (cbs i) p r.world size).result with
      | error e =>
        rw [hres] at hg
        cases hg
      | ok g2 =>
        rw [hres] at hg
        cases hg
        rw [allocate_handle_id (cbs i) p r.world size g hres, get_object_id _ _ _ hp]
  · unfold Deleter
    rw [hnone]
  · decide

theorem C11_handle_outlives_pool_witness :
    0 < (Registry.mk 1 [MemoryPool.mk 0 (List.replicate 64 []) [(77, 40)]]
          (⟨[], [Event.alloc (2 ^ 40) (some 77)]⟩ : World (List (Option Addr)))).next_id_
    ∧ (Handle.mk 77 0).pool_id = 0
    ∧ Deleter (Handle.mk 77 0).pool_id (Handle.mk 77 0).ptr
        (sysRun (fun _ => scripted)
          ((Registry.mk 1 [MemoryPool.mk 0 (List.replicate 64 []) [(77, 40)]]
            (⟨[], [Event.alloc (2 ^ 40) (some 77)]⟩ : World (List (Option Addr)))).destruct
              (fun _ => scripted) 0)
          [SysOp.construct, SysOp.allocate 1 8])
        = sysRun (fun _ => scripted)
          ((Registry.mk 1 [MemoryPool.mk 0 (List.replicate 64 []) [(77, 40)]]
            (⟨[], [Event.alloc (2 ^ 40) (some 77)]⟩ : World (List (Option Addr)))).destruct
              (fun _ => scripted) 0)
          [SysOp.construct, SysOp.allocate 1 8] :=
  ⟨by decide, rfl,
    (C11_handle_outlives_pool (fun _ => scripted)
      (Registry.mk 1 [MemoryPool.mk 0 (List.replicate 64 []) [(77, 40)]]
        ⟨[], [Event.alloc (2 ^ 40) (some 77)]⟩)
      0 [SysOp.construct, SysOp.allocate 1 8] (Handle.mk 77 0) (by decide) rfl).2.2.2.1⟩

/-- C12 (the OpenCL release callback drains the queue first).  Every invocation
of the deleter that `OpenCLInternalState` gives to its pool, from any state of
the device (any commands in flight), does exactly two things in this order:
`queue.finish()`, then the deletion of the buffer `ptr` that was passed in.  At the
deletion no command is in flight; `ptr` is no longer a live buffer afterwards and
every other buffer is as before.  The same holds for the invocation made by the
pool (`deleter_(ptr)`), which also logs the release of `ptr`. -/
theorem C12_finish_before_delete (ptr : Addr) (st : ClState) (log : List Event) :
    (opencl.deleter_ ptr st).trace
        = st.trace ++ [ClEvent.finish, ClEvent.deleteBuffer ptr 0]
    ∧ (opencl.deleter_ ptr st).inFlight = []
    ∧ ptr ∉ (opencl.deleter_ ptr st).buffers
    ∧ (∀ b, b ≠ ptr → (b ∈ (opencl.deleter_ ptr st).buffers ↔ b ∈ st.buffers))
    ∧ (callDeleter opencl ptr ⟨st, log⟩).env.trace
        = st.trace ++ [ClEvent.finish, ClEvent.deleteBuffer ptr 0]
    ∧ (callDeleter opencl ptr ⟨st, log⟩).log = log ++ [Event.release ptr] := by
  refine ⟨?_, rfl, ?_, ?_, ?_, rfl⟩
  · simp [opencl, opencl_deleter, delete_buffer, queue_finish]
  · simp [opencl, opencl_deleter, delete_buffer, queue_finish]
  · intro b hb
    simp [opencl, opencl_deleter, delete_buffer, queue_finish, hb]
  · simp [callDeleter, opencl, opencl_deleter, delete_buffer, queue_finish]

theorem C12_finish_before_delete_witness :
    (opencl.deleter_ 5 (enqueue_kernel 2 (enqueue_kernel 1 ⟨[], [4, 5, 6], [], []⟩))).trace
        = [ClEvent.finish, ClEvent.deleteBuffer 5 0]
    ∧ (opencl.deleter_ 5 (enqueue_kernel 2 (enqueue_kernel 1 ⟨[], [4, 5, 6], [], []⟩))).buffers
        = [4, 6] :=
  ⟨(C12_finish_before_delete 5 (enqueue_kernel 2 (enqueue_kernel 1 ⟨[], [4, 5, 6], [], []⟩))
      []).1, by decide⟩

/-- C14 (size-class consistency).  Start from a freshly constructed pool with an
empty callback log and perform any sequence of operations under the assumption
of C1.  In the state reached, every block in the free list of class `k` and every
outstanding block recorded with class `k` was last obtained from the allocation
callback with capacity exactly `2 ^ k` (and has not been released to it since).
Hence an `allocate(size)` from that state that succeeds, whether it reuses a
cached block or obtains a new one, returns a block whose capacity is `2 ^ k` for
the class `k` of `size`, which is at least `size`. -/
theorem C14_size_class_consistency {σ : Type} (cb : Callbacks σ) (id : Nat) (e : σ)
    (ops : List Op) (hfresh : freshRun cb (MemoryPool.new id, ⟨e, []⟩) ops = true) :
    (∀ k a, a ∈ (run cb (MemoryPool.new id, ⟨e, []⟩) ops).1.bucket k →
        liveCap (run cb (MemoryPool.new id, ⟨e, []⟩) ops).2.log a = some (2 ^ k))
    ∧ (∀ a k, (a, k) ∈ (run cb (MemoryPool.new id, ⟨e, []⟩) ops).1.supplied_ →
        liveCap (run cb (MemoryPool.new id, ⟨e, []⟩) ops).2.log a = some (2 ^ k))
    ∧ ∀ (size : Nat) (h : Handle),
        freshCall cb (run cb (MemoryPool.new id, ⟨e, []⟩) ops).1
          (run cb (MemoryPool.new id, ⟨e, []⟩) ops).2 size = true →
        (allocate cb (run cb (MemoryPool.new id, ⟨e, []⟩) ops).1
          (run cb (MemoryPool.new id, ⟨e, []⟩) ops).2 size).result = Except.ok h →
        ∃ k, calculate_shifts size = Except.ok k
          ∧ liveCap (allocate cb (run cb (MemoryPool.new id, ⟨e, []⟩) ops).1
              (run cb (MemoryPool.new id, ⟨e, []⟩) ops).2 size).world.log h.ptr = some (2 ^ k)
          ∧ size ≤ 2 ^ k := by
  have hinv : Inv (run cb (MemoryPool.new id, ⟨e, []⟩) ops).1 :=
    Inv_run cb (MemoryPool.new id, ⟨e, []⟩) ops (Inv_new id) hfresh
  have hcap := CapInv_run cb (MemoryPool.new id, ⟨e, []⟩) ops (Inv_new id) hfresh
    (CapInv_new id e)
  refine ⟨hcap.1, fun a k hm => hcap.2 (a, k) hm, ?_⟩
  intro size h hf hr
  have hcap2 := CapInv_allocate cb _ _ size hinv hf hcap
  obtain ⟨k, hs, hk, hm⟩ := allocate_ok_recorded cb _ _ size h hinv hf hr
  exact ⟨k, hs, hcap2.2 (h.ptr, k) hm, calculate_shifts_cover size k hs hk⟩

theorem C14_size_class_consistency_witness :
    freshRun scripted (MemoryPool.new 0, ⟨[some 100, some 200], []⟩)
        [Op.allocate 10, Op.allocate 1000, Op.free 100] = true
    ∧ ∃ k, calculate_shifts 12 = Except.ok k
      ∧ liveCap (allocate scripted
            (run scripted (MemoryPool.new 0, ⟨[some 100, some 200], []⟩)
              [Op.allocate 10, Op.allocate 1000, Op.free 100]).1
            (run scripted (MemoryPool.new 0, ⟨[some 100, some 200], []⟩)
              [Op.allocate 10, Op.allocate 1000, Op.free 100]).2 12).world.log
          (Handle.mk 100 0).ptr = some (2 ^ k)
      ∧ 12 ≤ 2 ^ k :=
  ⟨by decide,
    (C14_size_class_consistency scripted 0 [some 100, some 200]
      [Op.allocate 10, Op.allocate 1000, Op.free 100] (by decide)).2.2 12 (Handle.mk 100 0)
      (by decide) rfl⟩

/-- C15, as stated, fails at `size = 0`: `calc_dim1_size(0)` returns 1 (the loop
exits at its first test), and no result of it is a power of two that is at most
0. -/
theorem C15_calc_dim1_size_counterexample :
    (∀ fuel, calc_dim1_size (fuel + 1) 0 = some 1)
    ∧ ¬ ∃ fuel x n, calc_dim1_size fuel 0 = some x ∧ x = 2 ^ n ∧ x ≤ 0 := by
  constructor
  · intro fuel
    rfl
  · rintro ⟨fuel, x, n, _, hx, h0⟩
    have : 0 < 2 ^ n := Nat.pow_pos (by decide)
    omega

/-- C15, amended (`calc_dim1_size` on sizes from 1 to `2 ^ 31 - 1`).  For every
size with `1 ≤ size < 2 ^ 31` the loop exits within 32 tests of its condition and
`calc_dim1_size(size)` returns an `x` with `x = 2 ^ n` for some `n` and `x ≤ size`;
it is the largest such power (`size < 2 * x`). -/
theorem C15_calc_dim1_size (size : Nat) (h1 : 1 ≤ size) (h2 : size < 2 ^ 31) :
    ∀ fuel, 32 ≤ fuel →
      ∃ x n, calc_dim1_size fuel size = some x ∧ x = 2 ^ n ∧ x ≤ size ∧ size < 2 * x := by
  intro fuel hf
  obtain ⟨n, hr, hle, hlt⟩ := calc_dim1_loop_spec size h2 fuel 0 (by simpa using h1) (by omega)
  refine ⟨2 ^ n, n, hr, rfl, hle, ?_⟩
  rw [Nat.pow_succ] at hlt
  omega

theorem C15_calc_dim1_size_witness :
    1 ≤ 1000 ∧ 1000 < 2 ^ 31
    ∧ ∃ x n, calc_dim1_size 32 1000 = some x ∧ x = 2 ^ n ∧ x ≤ 1000 ∧ 1000 < 2 * x :=
  ⟨by decide, by decide, C15_calc_dim1_size 1000 (by decide) (by decide) 32 (Nat.le_refl 32)⟩

/-- C16, as stated, fails at `size = 0`: `calc_dim2_sizes(0, x, y)` leaves
`x = y = 1` (the loop exits at its first test), so `x * y = 1 > 0`; no result of
it has `x * y ≤ 0` with `x` and `y` powers of two. -/
theorem C16_calc_dim2_sizes_counterexample :
    (∀ fuel, calc_dim2_sizes (fuel + 1) 0 = some (1, 1))
    ∧ ¬ ∃ fuel x y n m, calc_dim2_sizes fuel 0 = some (x, y) ∧ x = 2 ^ n ∧ y = 2 ^ m
        ∧ x * y ≤ 0 ∧ (x / y = 1 ∨ x / y = 2) := by
  constructor
  · intro fuel
    rfl
  · rintro ⟨fuel, x, y, n, m, _, hx, hy, h0, _⟩
    have h1 : 0 < 2 ^ n := Nat.pow_pos (by decide)
    have h2 : 0 < 2 ^ m := Nat.pow_pos (by decide)
    have h3 : 0 < x * y := by
      rw [hx, hy]
      exact Nat.mul_pos h1 h2
    omega

/-- C16, amended (`calc_dim2_sizes` on sizes from 1 to `2 ^ 31 - 1`).  For every
size with `1 ≤ size < 2 ^ 31` the loop exits within 32 tests of its condition and
`calc_dim2_sizes(size, x, y)` sets `x = 2 ^ n` and `y = 2 ^ m` for some `n`, `m` with
`x * y ≤ size` and `x / y` equal to 1 or 2; the product is the largest power of two
that is at most `size` (`size < 2 * (x * y)`). -/
theorem C16_calc_dim2_sizes (size : Nat) (h1 : 1 ≤ size) (h2 : size < 2 ^ 31) :
    ∀ fuel, 32 ≤ fuel →
      ∃ x y n m, calc_dim2_sizes fuel size = some (x, y) ∧ x = 2 ^ n ∧ y = 2 ^ m
        ∧ x * y ≤ size ∧ (x / y = 1 ∨ x / y = 2) ∧ size < 2 * (x * y) := by
  intro fuel hf
  obtain ⟨n, m, hr, hle, hlt, hnm⟩ :=
    calc_dim2_loop_spec size h2 fuel 0 0 true (Or.inl ⟨rfl, rfl⟩) (by simpa using h1) (by omega)
  have hprod : 2 ^ n * 2 ^ m = 2 ^ (n + m) := (Nat.pow_add 2 n m).symm
  refine ⟨2 ^ n, 2 ^ m, n, m, hr, rfl, rfl, ?_, ?_, ?_⟩
  · rw [hprod]; exact hle
  · have hpos : 0 < 2 ^ m := Nat.pow_pos (by decide)
    rcases hnm with h | h
    · left
      rw [h]
      exact Nat.div_self hpos
    · right
      rw [h, Nat.pow_succ]
      exact Nat.mul_div_cancel_left 2 hpos
  · rw [hprod]
    rw [Nat.pow_succ] at hlt
    omega

theorem C16_calc_dim2_sizes_witness :
    1 ≤ 1000 ∧ 1000 < 2 ^ 31
    ∧ ∃ x y n m, calc_dim2_sizes 32 1000 = some (x, y) ∧ x = 2 ^ n ∧ y = 2 ^ m
        ∧ x * y ≤ 1000 ∧ (x / y = 1 ∨ x / y = 2) ∧ 1000 < 2 * (x * y) :=
  ⟨by decide, by decide, C16_calc_dim2_sizes 1000 (by decide) (by decide) 32 (Nat.le_refl 32)⟩

/-- C17 (termination of the work-group size helpers) does not hold on the code:
for every size with `2 ^ 31 ≤ size`, with the shifts and the product computed
modulo `2 ^ 32`, neither loop ever exits.  In `calc_dim1_size`, `ret` reaches
`2 ^ 31`, `ret << 1` wraps to 0, which is at most `size`, so `ret` becomes 0 and the
condition `0 <= size` holds for ever; in `calc_dim2_sizes` the product `x * y` wraps
to 0 in the same way.  Whatever the number of tests allowed, no result is
produced. -/
theorem C17_loops_diverge (size : Nat) (h : 2 ^ 31 ≤ size) :
    ∀ fuel, calc_dim1_size fuel size = none ∧ calc_dim2_sizes fuel size = none := by
  intro fuel
  constructor
  · have := calc_dim1_loop_diverges size h fuel 0
    simpa [calc_dim1_size] using this
  · have := calc_dim2_loop_diverges size h fuel 0 0 true
    simpa [calc_dim2_sizes] using this

theorem C17_loops_diverge_witness :
    2 ^ 31 ≤ 2147483648
    ∧ ∀ fuel, calc_dim1_size fuel 2147483648 = none ∧ calc_dim2_sizes fuel 2147483648 = none :=
  ⟨by decide, C17_loops_diverge 2147483648 (by decide)⟩

end primitiv
